import Mathlib

/-!
Verification of the Persona-Section-Prioritizer pipeline
(`src/section_prioritizer.py`).

The Python code is shallowly embedded: strings become `String`/`List Char`,
Python `float` scores become exact rationals `ℚ` (every score produced by the
code is a multiple of 1/10, so no rounding subtleties are lost), dictionaries
with heterogeneous values become association lists over an explicit `PyVal`
type, and code that can raise returns `Except`/`Option`.
-/

/- Batteries marks the `Rat` field operations irreducible, which prevents the
`decide` frontend from evaluating concrete scores; restore the default
reducibility for this file (`Rat.div` and `Rat.neg` already have it). -/
attribute [local semireducible] Rat.add Rat.mul Rat.inv Rat.sub

/-- Characters matched by the regex class `\s` and stripped by `str.strip()`
(ASCII scope): space, tab, newline, carriage return, vertical tab, form feed. -/
def isSpaceChar (c : Char) : Bool :=
  c == ' ' || c == '\t' || c == '\n' || c == '\r' ||
  c == Char.ofNat 11 || c == Char.ofNat 12

/-- Characters matched by the regex class `\w` (ASCII model): letters, digits,
underscore. -/
def isWordChar (c : Char) : Bool :=
  c.isAlphanum || c == '_'

/-- The explicit punctuation allow-list of `clean_text`:
`. , ; : ! ? - ( ) [ ] { } " '` (braces, the double quote and the apostrophe
are written via their character codes). -/
def extraAllowed : List Char :=
  ['.', ',', ';', ':', '!', '?', '-', '(', ')', '[', ']',
   Char.ofNat 123, Char.ofNat 125, Char.ofNat 34, Char.ofNat 39]

/-- A character kept by `clean_text`'s filter
`re.sub(r'[^\w\s\.\,\;\:\!\?\-\(\)\[\]\{\}\"\']', '', text)`. -/
def allowedChar (c : Char) : Bool :=
  isWordChar c || isSpaceChar c || extraAllowed.contains c

/-- The punctuation class of `re.sub(r'\s+([\.\,\;\:\!\?])', r'\1', text)`. -/
def isPunctChar (c : Char) : Bool :=
  c == '.' || c == ',' || c == ';' || c == ':' || c == '!' || c == '?'

/-- Python `str.strip()` on a character list. -/
def pyStrip (l : List Char) : List Char :=
  ((l.dropWhile isSpaceChar).reverse.dropWhile isSpaceChar).reverse

/-- Python `str.strip()` on a `String`. -/
def pyStripStr (s : String) : String :=
  String.mk (pyStrip s.data)

/-- `re.sub(r'\s+', ' ', text)`: collapse every whitespace run to one space.
The flag records whether the previous character was whitespace. -/
def squeezeWSAux : Bool → List Char → List Char
  | _, [] => []
  | prevWS, c :: cs =>
    if isSpaceChar c then
      if prevWS then squeezeWSAux true cs else ' ' :: squeezeWSAux true cs
    else c :: squeezeWSAux false cs

/-- `re.sub(r'\s+', ' ', text.strip())`: the first normalization step of
`clean_text`. -/
def squeezeWS (l : List Char) : List Char :=
  squeezeWSAux false (pyStrip l)

/-- `re.sub(p + '{2,}', p, text)` for a single character `p`: collapse each
run of two or more copies of `p` to one copy (used with `.`, `!`, `?`). -/
def collapseChar (p : Char) : List Char → List Char
  | [] => []
  | [c] => [c]
  | c :: d :: cs =>
    if c == p && d == p then collapseChar p (d :: cs)
    else c :: collapseChar p (d :: cs)

/-- Does the list start with a punctuation character, possibly after
whitespace?  This is the condition under which `re.sub(r'\s+([\.\,\;\:\!\?])',
r'\1', text)` deletes a whitespace character. -/
def headIsPunctAfterWS (l : List Char) : Bool :=
  match l.dropWhile isSpaceChar with
  | c :: _ => isPunctChar c
  | [] => false

/-- `re.sub(r'\s+([\.\,\;\:\!\?])', r'\1', text)`: delete every whitespace
character whose next non-whitespace character is punctuation. -/
def stepPunctWS : List Char → List Char
  | [] => []
  | c :: cs =>
    if isSpaceChar c && headIsPunctAfterWS cs then stepPunctWS cs
    else c :: stepPunctWS cs

/-- Traversal state for `re.sub(r'\s{2,}', ' ', text)`: either the previous
character was not whitespace, or exactly one whitespace character `w` is
pending (a run of length 1 is kept verbatim), or we are inside a whitespace
run of length ≥ 2 whose single replacement space has already been emitted. -/
inductive WSMode where
  | noWS : WSMode
  | oneWS : Char → WSMode
  | runWS : WSMode

/-- One-pass implementation of `re.sub(r'\s{2,}', ' ', text)`: each maximal
run of two or more whitespace characters becomes a single space; a lone
whitespace character is kept as is. -/
def collapseSpacesAux : WSMode → List Char → List Char
  | .noWS, [] => []
  | .oneWS w, [] => [w]
  | .runWS, [] => []
  | .noWS, c :: cs =>
    if isSpaceChar c then collapseSpacesAux (.oneWS c) cs
    else c :: collapseSpacesAux .noWS cs
  | .oneWS w, c :: cs =>
    if isSpaceChar c then ' ' :: collapseSpacesAux .runWS cs
    else w :: c :: collapseSpacesAux .noWS cs
  | .runWS, c :: cs =>
    if isSpaceChar c then collapseSpacesAux .runWS cs
    else c :: collapseSpacesAux .noWS cs

/-- `re.sub(r'\s{2,}', ' ', text)`. -/
def collapseSpaces (l : List Char) : List Char :=
  collapseSpacesAux .noWS l

/-- `clean_text` on a character list: the exact pipeline of
`SectionPrioritizer.clean_text` (strip/normalize whitespace, drop characters
outside the allow-list, collapse repeated `.`/`!`/`?`, remove whitespace
before punctuation, collapse remaining double spaces, strip). -/
def cleanList (l : List Char) : List Char :=
  if l = [] then []
  else
    pyStrip (collapseSpaces (stepPunctWS
      (collapseChar '?' (collapseChar '!' (collapseChar '.'
        (List.filter allowedChar (squeezeWS l)))))))

/-- `SectionPrioritizer.clean_text` on a `String`. -/
def clean_text (s : String) : String :=
  String.mk (cleanList s.data)

/-- Python `str.lower()` (ASCII model). -/
def strLower (s : String) : String :=
  String.mk (s.data.map Char.toLower)

/-- Contiguous sublist test: `needle` occurs somewhere in `haystack`
(Python `needle in haystack` on strings). -/
def isInfixB (needle : List Char) : List Char → Bool
  | [] => needle.isEmpty
  | c :: t => needle.isPrefixOf (c :: t) || isInfixB needle t

/-- Python `needle in haystack` on strings: contiguous substring test. -/
def substrOf (needle haystack : String) : Bool :=
  isInfixB needle.data haystack.data

/-- Scanner for `haystack.count(needle)` with a non-empty needle: `skip` is
the number of characters of the previous match still to be passed over, so
occurrences are counted non-overlapping, from the left. -/
def countOccAux (needle : List Char) : List Char → Nat → Nat
  | [], _ => 0
  | _ :: t, skip + 1 => countOccAux needle t skip
  | c :: t, 0 =>
    if needle.isPrefixOf (c :: t) then 1 + countOccAux needle t (needle.length - 1)
    else countOccAux needle t 0

/-- Python `haystack.count(needle)`: number of non-overlapping occurrences,
scanning from the left (an empty needle matches every gap, giving `len + 1`). -/
def countOcc (needle haystack : List Char) : Nat :=
  if needle.isEmpty then haystack.length + 1
  else countOccAux needle haystack 0

/-- The static persona table of `SectionPrioritizer.__init__`: each persona
name maps to its ordered keyword list and ordered priority-section list. -/
def personas : List (String × (List String × List String)) :=
  [("executive",
    (["strategy", "business", "revenue", "growth", "market", "leadership", "vision"],
     ["executive summary", "business model", "market analysis", "financial projections"])),
   ("technical",
    (["technology", "implementation", "architecture", "code", "development", "technical", "api"],
     ["technical architecture", "implementation details", "code examples", "system design"])),
   ("marketing",
    (["marketing", "brand", "customer", "user", "growth", "acquisition", "engagement"],
     ["marketing strategy", "user acquisition", "customer journey", "brand positioning"])),
   ("investor",
    (["investment", "funding", "financial", "roi", "valuation", "exit", "returns"],
     ["financial projections", "business model", "market opportunity", "investment thesis"]))]

/-- `persona in self.personas` / `self.personas[persona]`. -/
def personaLookup (persona : String) : Option (List String × List String) :=
  (personas.find? (fun kv => kv.1 == persona)).map (fun kv => kv.2)

/-- A document section as produced by `extract_sections`:
`{"title": ..., "content": ..., "page_number": ...}`. -/
structure Section where
  title : String
  content : String
  page_number : Nat
  deriving DecidableEq

/-- The title term of `calculate_section_score`: 0.3 for every keyword that is
a substring of the lowered title. -/
def titleScore (keywords : List String) (titleLower : String) : ℚ :=
  keywords.foldl
    (fun acc kw => if substrOf (strLower kw) titleLower then acc + 3/10 else acc) 0

/-- The content term of `calculate_section_score`: per keyword,
`min(count * 0.1, 0.5)` occurrences in the lowered content. -/
def contentScore (keywords : List String) (contentLower : String) : ℚ :=
  keywords.foldl
    (fun acc kw =>
      acc + min ((countOcc (strLower kw).data contentLower.data : ℚ) * (1/10)) (1/2)) 0

/-- The priority bonus loop of `calculate_section_score`: scan the phrases in
order; on the first phrase that is a substring of the lowered title, the bonus
becomes 0.2 and the loop breaks. -/
def priorityBonus (phrases : List String) (titleLower : String) : ℚ :=
  match phrases with
  | [] => 0
  | p :: ps => if substrOf (strLower p) titleLower then 1/5 else priorityBonus ps titleLower

/-- `SectionPrioritizer.calculate_section_score`: 0.0 for unknown personas,
otherwise `min(title_score + content_score + priority_bonus, 1.0)`. -/
def calculate_section_score (s : Section) (persona : String) : ℚ :=
  match personaLookup persona with
  | none => 0
  | some (keywords, priority_sections) =>
    let titleLower := strLower s.title
    let contentLower := strLower s.content
    min (titleScore keywords titleLower + contentScore keywords contentLower +
         priorityBonus priority_sections titleLower) 1

/-- Python `str.isupper()` (ASCII model): at least one letter, and every
letter upper-case. -/
def pyIsUpper (s : String) : Bool :=
  s.data.any (fun c => c.isAlpha) && s.data.all (fun c => !c.isAlpha || c.isUpper)

/-- `re.match(r'^\d+\.\s+[A-Z]', line)`: one or more digits, a period, one or
more whitespace characters, then an upper-case letter. -/
def matchNumbered (l : List Char) : Bool :=
  match l with
  | [] => false
  | c :: _ =>
    c.isDigit &&
    (match l.dropWhile Char.isDigit with
     | '.' :: rest =>
       (match rest with
        | d :: _ =>
          isSpaceChar d &&
          (match rest.dropWhile isSpaceChar with
           | u :: _ => u.isUpper
           | [] => false)
        | [] => false)
     | _ => false)

/-- `re.match(r'^[A-Z][a-z]+.*:$', line)`: an upper-case letter, at least one
lower-case letter, anything, and a final colon (lines never contain a
newline, so `.*` is unconstrained). -/
def matchCapColon : List Char → Bool
  | c0 :: c1 :: rest => c0.isUpper && c1.isLower && ((c1 :: rest).getLast? == some ':')
  | _ => false

/-- Python `line.endswith(':')`. -/
def endsWithColon (s : String) : Bool :=
  s.data.getLast? == some ':'

/-- The header heuristic of `extract_sections` applied to a stripped line. -/
def lineIsHeader (line : String) : Bool :=
  pyIsUpper line || matchNumbered line.data || matchCapColon line.data ||
  (decide (line.length < 100) && endsWithColon line)

/-- Python `line.rstrip(':')`: drop every trailing colon. -/
def rstripColons (s : String) : String :=
  String.mk ((s.data.reverse.dropWhile (fun c => c == ':')).reverse)

/-- Flush the current accumulator section: if its raw content is non-blank,
clean title and content and append the section, as in the two flush sites of
`extract_sections`. -/
def flushIfContent (cur : Section) (acc : List Section) : List Section :=
  if pyStripStr cur.content ≠ "" then
    acc ++ [⟨clean_text cur.title, clean_text cur.content, cur.page_number⟩]
  else acc

/-- The line loop of `extract_sections`: `i` is the index in the original
line list, each line is stripped, blank lines are skipped, header lines flush
the accumulator and start a new section (title without trailing colons, page
estimate `i / 50 + 1`), other lines are appended to the content with a
newline. -/
def extractLoop : List String → Nat → Section → List Section → List Section
  | [], _, cur, acc => flushIfContent cur acc
  | line :: rest, i, cur, acc =>
    let l := pyStripStr line
    if l = "" then extractLoop rest (i + 1) cur acc
    else if lineIsHeader l then
      extractLoop rest (i + 1) ⟨rstripColons l, "", i / 50 + 1⟩ (flushIfContent cur acc)
    else
      extractLoop rest (i + 1) ⟨cur.title, cur.content ++ l ++ "\n", cur.page_number⟩ acc

/-- Python `text.split('\n')` on a character list: split at every newline,
keeping empty parts (`""` splits to `[""]`).  `cur` is the reversed current
part. -/
def splitLinesAux : List Char → List Char → List String
  | [], cur => [String.mk cur.reverse]
  | c :: cs, cur =>
    if c = '\n' then String.mk cur.reverse :: splitLinesAux cs []
    else splitLinesAux cs (c :: cur)

/-- Python `text.split('\n')`. -/
def splitLines (text : String) : List String :=
  splitLinesAux text.data []

/-- `SectionPrioritizer.extract_sections`: run the line loop starting from the
`"Introduction"` accumulator, then keep only sections with non-blank title,
non-blank content and content length > 10. -/
def extract_sections (text : String) : List Section :=
  (extractLoop (splitLines text) 0 ⟨"Introduction", "", 1⟩ []).filter
    (fun s => pyStripStr s.title != "" && pyStripStr s.content != "" &&
      decide (10 < s.content.length))

/-- A section together with its raw relevance score, as after the scoring
loop of `prioritize_sections`. -/
structure ScoredSection where
  title : String
  content : String
  page_number : Nat
  relevance_score : ℚ
  deriving DecidableEq

/-- A ranked output section: rounded score and 1-based importance rank. -/
structure RankedSection where
  title : String
  content : String
  page_number : Nat
  relevance_score : ℚ
  importance_rank : Nat
  deriving DecidableEq

/-- `section.copy()` plus `scored_section["relevance_score"] = score` in the
scoring loop of `prioritize_sections`. -/
def scoreSection (persona : String) (s : Section) : ScoredSection :=
  ⟨s.title, s.content, s.page_number, calculate_section_score s persona⟩

/-- Stable descending insertion: `x` is placed after every element with a
strictly greater key and before every element with a smaller-or-equal key. -/
def insertDescBy {α : Type} (key : α → ℚ) (x : α) : List α → List α
  | [] => [x]
  | y :: ys => if key y > key x then y :: insertDescBy key x ys else x :: y :: ys

/-- `list.sort(key=..., reverse=True)`: a stable sort, descending by key.
A stable sort's output is determined by the key order plus stability, so this
stable insertion sort computes the same list as Python's Timsort. -/
def sortDescBy {α : Type} (key : α → ℚ) : List α → List α
  | [] => []
  | x :: xs => insertDescBy key x (sortDescBy key xs)

/-- `round(float(x), 2)`: rounding to two decimal places. Every score the
code produces is a multiple of 1/10, so `x * 100` is an integer and the
round-half-to-even versus round-half-up distinction never arises. -/
def round2 (q : ℚ) : ℚ :=
  (round (q * 100) : ℚ) / 100

/-- The rank loop of `prioritize_sections`: position `i` (0-based) receives
`importance_rank = i + 1` and its score is rounded to two decimals. -/
def addRanks : Nat → List ScoredSection → List RankedSection
  | _, [] => []
  | i, x :: xs =>
    ⟨x.title, x.content, x.page_number, round2 x.relevance_score, i + 1⟩ :: addRanks (i + 1) xs

/-- `SectionPrioritizer.prioritize_sections`: score every section (on a
copy), sort stably by descending score, then assign ranks 1, 2, ... and round
the scores. -/
def prioritize_sections (sections : List Section) (persona : String) : List RankedSection :=
  addRanks 0 (sortDescBy (fun x => x.relevance_score) (sections.map (scoreSection persona)))

/-- The Result Record built by `process_document`. -/
structure ResultRecord where
  document : String
  persona : String
  job_to_be_done : String
  processing_timestamp : String
  total_sections : Nat
  sections : List RankedSection
  deriving DecidableEq

/-- `SectionPrioritizer.process_document` after the text-extraction
collaborator has produced `text` (PDF reading is external I/O; the document
name and the timestamp are passed in).  Empty text takes the error-record
path, modelled as `none`.  The validator calls inside `process_document`
only print warnings and do not affect the result. -/
def process_document (docName text persona timestamp : String) : Option ResultRecord :=
  if text = "" then none
  else
    let sections := extract_sections text
    let prioritized := prioritize_sections sections persona
    let top := prioritized.take 10
    some
      { document := docName
        persona := persona
        job_to_be_done :=
          "Prioritize document sections for " ++ persona ++
          " persona based on relevance and importance"
        processing_timestamp := timestamp
        total_sections := sections.length
        sections := top }

/-- A Python value as stored in a section dictionary or a result record
(`Any` in the source's type hints). -/
inductive PyVal where
  | VInt (n : Int)
  | VFloat (q : ℚ)
  | VStr (s : String)
  | VBool (b : Bool)
  | VNone
  | VList (xs : List PyVal)
  | VDict (kvs : List (String × PyVal))

/-- A Python dictionary with string keys, in insertion order. -/
abbrev PyDict := List (String × PyVal)

/-- `d[k]` lookup (first binding wins; a `PyDict` built by the code has
distinct keys). -/
def dictGet (d : PyDict) (k : String) : Option PyVal :=
  match d.find? (fun kv => kv.1 == k) with
  | some kv => some kv.2
  | none => none

/-- Python `k in d`. -/
def dictHas (d : PyDict) (k : String) : Bool :=
  (dictGet d k).isSome

/-- Python `d[k] = v`: update the existing binding in place, else append. -/
def dictSet (d : PyDict) (k : String) (v : PyVal) : PyDict :=
  if dictHas d k then d.map (fun kv => if kv.1 == k then (k, v) else kv)
  else d ++ [(k, v)]

/-- Python `d.copy()`: a fresh dictionary with the same entries. -/
def dictCopy (d : PyDict) : PyDict := d

/-- Python `type(v).__name__` (for error messages). -/
def typeName : PyVal → String
  | .VInt _ => "int"
  | .VFloat _ => "float"
  | .VStr _ => "str"
  | .VBool _ => "bool"
  | .VNone => "NoneType"
  | .VList _ => "list"
  | .VDict _ => "dict"

/-- Python `isinstance(v, int)`: `bool` is a subclass of `int`. -/
def isIntLike : PyVal → Bool
  | .VInt _ => true
  | .VBool _ => true
  | _ => false

/-- Python `isinstance(v, (int, float))`. -/
def isNumLike : PyVal → Bool
  | .VInt _ => true
  | .VBool _ => true
  | .VFloat _ => true
  | _ => false

/-- The numeric value of an int-or-float-or-bool (0 for other values, which
the callers never compare). -/
def numValOf : PyVal → ℚ
  | .VInt n => (n : ℚ)
  | .VBool b => if b then 1 else 0
  | .VFloat q => q
  | _ => 0

/-- The integer value of an int-or-bool. -/
def intValOf : PyVal → Int
  | .VInt n => n
  | .VBool b => if b then 1 else 0
  | _ => 0

/-- Rendering of a value inside an f-string (abbreviated; the claims do not
depend on message texts). -/
def pyRepr : PyVal → String
  | .VInt n => toString n
  | .VFloat q => toString q.num ++ "/" ++ toString q.den
  | .VStr s => s
  | .VBool b => if b then "True" else "False"
  | .VNone => "None"
  | .VList _ => "list"
  | .VDict _ => "dict"

/-- The required-field loop of `validate_sections` for section `i`
(0-based; messages use the 1-based index as in the source). -/
def reqFieldMsgs (i : Nat) (d : PyDict) : List String :=
  ["title", "content", "page_number", "importance_rank", "relevance_score"].filterMap
    (fun f =>
      if dictHas d f then none
      else some ("Section " ++ toString (i + 1) ++ " missing required field: " ++ f))

/-- The `importance_rank` check of `validate_sections`: a non-integer rank
produces a message, an integer (or bool) rank is added to the collected rank
set. -/
def rankMsgsRanks (i : Nat) (d : PyDict) : List String × List Int :=
  match dictGet d "importance_rank" with
  | none => ([], [])
  | some v =>
    if isIntLike v then ([], [intValOf v])
    else
      (["Section " ++ toString (i + 1) ++ " importance_rank must be integer, got " ++
        typeName v], [])

/-- The `relevance_score` checks of `validate_sections`. -/
def scoreMsgs (i : Nat) (d : PyDict) : List String :=
  match dictGet d "relevance_score" with
  | none => []
  | some v =>
    if !isNumLike v then
      ["Section " ++ toString (i + 1) ++ " relevance_score must be number, got " ++ typeName v]
    else if !(decide (0 ≤ numValOf v) && decide (numValOf v ≤ 1)) then
      ["Section " ++ toString (i + 1) ++ " relevance_score must be between 0 and 1, got " ++
       pyRepr v]
    else []

/-- The `page_number` check of `validate_sections`. -/
def pageMsgs (i : Nat) (d : PyDict) : List String :=
  match dictGet d "page_number" with
  | none => []
  | some v =>
    if !isIntLike v || decide (intValOf v < 1) then
      ["Section " ++ toString (i + 1) ++ " page_number must be positive integer, got " ++
       pyRepr v]
    else []

/-- The title quality check of `validate_sections`:
`section["title"].strip()` raises `AttributeError` when the value is not a
string. -/
def titleMsgs (i : Nat) (d : PyDict) : Except String (List String) :=
  match dictGet d "title" with
  | none => Except.ok []
  | some (.VStr t) =>
    Except.ok
      (if pyStripStr t = "" || t.length < 2 then
        ["Section " ++ toString (i + 1) ++ " title is too short or empty"]
       else [])
  | some v =>
    Except.error ("AttributeError: " ++ typeName v ++ " object has no attribute strip")

/-- The content quality check of `validate_sections` (same raise behaviour as
the title check, length bound 10). -/
def contentMsgs (i : Nat) (d : PyDict) : Except String (List String) :=
  match dictGet d "content" with
  | none => Except.ok []
  | some (.VStr t) =>
    Except.ok
      (if pyStripStr t = "" || t.length < 10 then
        ["Section " ++ toString (i + 1) ++ " content is too short or empty"]
       else [])
  | some v =>
    Except.error ("AttributeError: " ++ typeName v ++ " object has no attribute strip")

/-- One iteration of the `validate_sections` loop: the messages appended for
section `i`, in source order, plus its contribution to the collected rank
set.  A raise inside the iteration discards the collected messages. -/
def checkSection (i : Nat) (d : PyDict) : Except String (List String × List Int) :=
  match titleMsgs i d, contentMsgs i d with
  | Except.ok t, Except.ok c =>
    Except.ok
      (reqFieldMsgs i d ++ (rankMsgsRanks i d).1 ++ scoreMsgs i d ++ pageMsgs i d ++ t ++ c,
       (rankMsgsRanks i d).2)
  | Except.error e, _ => Except.error e
  | _, Except.error e => Except.error e

/-- The full loop of `validate_sections` over the section list. -/
def validateLoop : Nat → List PyDict → Except String (List String × List Int)
  | _, [] => Except.ok ([], [])
  | i, d :: ds =>
    match checkSection i d with
    | Except.error e => Except.error e
    | Except.ok (errs, rks) =>
      match validateLoop (i + 1) ds with
      | Except.error e => Except.error e
      | Except.ok (errs2, rks2) => Except.ok (errs ++ errs2, rks ++ rks2)

/-- The final rank-set comparison of `validate_sections`:
`expected_ranks = set(range(1, len(sections) + 1))` against the collected
ranks. -/
def rankSetMsgs (n : Nat) (ranks : List Int) : List String :=
  if ((List.range n).map (fun k => (k + 1 : Int))).toFinset = ranks.toFinset then []
  else ["Importance ranks are not sequential"]

/-- `SectionPrioritizer.validate_sections`: collect all violation messages;
an uncaught `AttributeError`/`TypeError` from a non-string title or content
is modelled as `Except.error`. -/
def validate_sections (sections : List PyDict) : Except String (List String) :=
  match validateLoop 0 sections with
  | Except.error e => Except.error e
  | Except.ok (errs, ranks) => Except.ok (errs ++ rankSetMsgs sections.length ranks)

/-- Is `validate_sections` returning normally (not raising)? -/
def validationOk (sections : List PyDict) : Bool :=
  match validate_sections sections with
  | Except.ok _ => true
  | Except.error _ => false

/-- The persona enumeration of `self.json_schema`. -/
def personaEnum : List String := ["executive", "technical", "marketing", "investor"]

/-- Is a value a string? -/
def isStrVal : PyVal → Bool
  | .VStr _ => true
  | _ => false

/-- Schema conformance of one entry of the `sections` array of
`self.json_schema` (required fields, field types and bounds). -/
def sectionItemOk (v : PyVal) : Bool :=
  match v with
  | .VDict d =>
    ["title", "content", "page_number", "importance_rank", "relevance_score"].all
      (fun f => dictHas d f) &&
    (match dictGet d "title" with
     | some (.VStr s) => decide (1 ≤ s.length)
     | none => true
     | _ => false) &&
    (match dictGet d "content" with
     | some (.VStr s) => decide (1 ≤ s.length)
     | none => true
     | _ => false) &&
    (match dictGet d "page_number" with
     | some (.VInt n) => decide (1 ≤ n)
     | none => true
     | _ => false) &&
    (match dictGet d "importance_rank" with
     | some (.VInt n) => decide (1 ≤ n)
     | none => true
     | _ => false) &&
    (match dictGet d "relevance_score" with
     | some (.VInt n) => decide ((0 : Int) ≤ n) && decide (n ≤ 1)
     | some (.VFloat q) => decide ((0 : ℚ) ≤ q) && decide (q ≤ 1)
     | none => true
     | _ => false)
  | _ => false

/-- Models the external `jsonschema.validate` call on the fixed
`self.json_schema`: a conforming record passes, the first violation found
raises a `ValidationError` carrying a message.  The library's exact traversal
order and message texts are abbreviated; the claims depend only on
pass-versus-raise. -/
def jsonschemaValidate (data : PyVal) : Except String Unit :=
  match data with
  | .VDict d =>
    match ["document", "persona", "job_to_be_done", "processing_timestamp",
           "total_sections", "sections"].find? (fun f => !dictHas d f) with
    | some f => Except.error (f ++ " is a required property")
    | none =>
      if !(match dictGet d "document" with
           | some v => isStrVal v
           | none => true) then Except.error "document is not of type string"
      else if !(match dictGet d "persona" with
           | some (.VStr s) => personaEnum.contains s
           | some _ => false
           | none => true) then Except.error "persona is not one of the enum"
      else if !(match dictGet d "job_to_be_done" with
           | some v => isStrVal v
           | none => true) then Except.error "job_to_be_done is not of type string"
      else if !(match dictGet d "processing_timestamp" with
           | some v => isStrVal v
           | none => true) then Except.error "processing_timestamp is not of type string"
      else if !(match dictGet d "total_sections" with
           | some (.VInt n) => decide (0 ≤ n)
           | some _ => false
           | none => true) then Except.error "total_sections is not a non-negative integer"
      else if !(match dictGet d "sections" with
           | some (.VList xs) => xs.all sectionItemOk
           | some _ => false
           | none => true) then Except.error "sections does not conform to the item schema"
      else Except.ok ()
  | _ => Except.error "data is not of type object"

/-- `SectionPrioritizer.validate_json_structure`: wrap `jsonschema.validate`
in `try/except`, so it always returns a list with at most one message. -/
def validate_json_structure (data : PyVal) : List String :=
  match jsonschemaValidate data with
  | Except.ok _ => []
  | Except.error m => ["JSON Schema validation error: " ++ m]

/-- Scoring at the dictionary level, as `calculate_section_score` reads
`section["title"]` / `section["content"]`: an unknown persona returns 0.0
before touching the section; a missing or non-string field raises
(`none`).  The page number does not enter the score. -/
def calcScoreD (d : PyDict) (persona : String) : Option ℚ :=
  if (personaLookup persona).isNone then some 0
  else
    match dictGet d "title", dictGet d "content" with
    | some (.VStr t), some (.VStr c) => some (calculate_section_score ⟨t, c, 1⟩ persona)
    | _, _ => none

/-- The scoring loop of `prioritize_sections` at the store level: the store
holds every live dictionary, a section is a reference (index) into it.
`section.copy()` allocates a fresh dictionary at the end of the store and
`scored_section["relevance_score"] = score` writes into that fresh copy;
the loop returns the extended store and the references of the copies. -/
def scoreLoop (persona : String) : List PyDict → List Nat → Option (List PyDict × List Nat)
  | store, [] => some (store, [])
  | store, r :: rs =>
    match store[r]? with
    | none => none
    | some d =>
      match calcScoreD d persona with
      | none => none
      | some q =>
        let d2 := dictSet (dictCopy d) "relevance_score" (.VFloat q)
        match scoreLoop persona (store ++ [d2]) rs with
        | none => none
        | some (st, outs) => some (st, store.length :: outs)

/-- The sort key `lambda x: x["relevance_score"]` read through the store. -/
def refScore (store : List PyDict) (r : Nat) : ℚ :=
  match store[r]? with
  | some d =>
    match dictGet d "relevance_score" with
    | some (.VFloat q) => q
    | _ => 0
  | none => 0

/-- The rank loop of `prioritize_sections` at the store level: it mutates the
(fresh) dictionary behind each reference, adding `importance_rank = i + 1`
and rounding `relevance_score`. -/
def rankLoop : List PyDict → List Nat → Nat → List PyDict
  | store, [], _ => store
  | store, r :: rs, i =>
    match store[r]? with
    | some d =>
      rankLoop
        (store.set r
          (dictSet (dictSet d "importance_rank" (.VInt (i + 1)))
            "relevance_score" (.VFloat (round2 (refScore store r)))))
        rs (i + 1)
    | none => rankLoop store rs (i + 1)

/-- Store-level embedding of `SectionPrioritizer.prioritize_sections`, making
the dictionary allocations and mutations explicit: score every input
reference into a fresh copy, sort the copies' references stably by descending
score, rank-annotate the copies, and return the final store plus the ordered
output references. -/
def prioritizeHeap (store : List PyDict) (sections : List Nat) (persona : String) :
    Option (List PyDict × List Nat) :=
  match scoreLoop persona store sections with
  | none => none
  | some (st, outs) =>
    let sorted := sortDescBy (refScore st) outs
    some (rankLoop st sorted 0, sorted)

/-- Are the `title` and `content` entries, when present, strings?  Exactly
the condition under which `validate_sections` cannot raise. -/
def goodTC (d : PyDict) : Bool :=
  (match dictGet d "title" with
   | some v => isStrVal v
   | none => true) &&
  (match dictGet d "content" with
   | some v => isStrVal v
   | none => true)

/-- The title messages of a non-raising `validate_sections` iteration. -/
def titleMsgsP (i : Nat) (d : PyDict) : List String :=
  match dictGet d "title" with
  | some (.VStr t) =>
    if pyStripStr t = "" || t.length < 2 then
      ["Section " ++ toString (i + 1) ++ " title is too short or empty"]
    else []
  | _ => []

/-- The content messages of a non-raising `validate_sections` iteration. -/
def contentMsgsP (i : Nat) (d : PyDict) : List String :=
  match dictGet d "content" with
  | some (.VStr t) =>
    if pyStripStr t = "" || t.length < 10 then
      ["Section " ++ toString (i + 1) ++ " content is too short or empty"]
    else []
  | _ => []

/-- All messages of one `validate_sections` iteration, in source order. -/
def sectionMsgs (i : Nat) (d : PyDict) : List String :=
  reqFieldMsgs i d ++ (rankMsgsRanks i d).1 ++ scoreMsgs i d ++ pageMsgs i d ++
    titleMsgsP i d ++ contentMsgsP i d

/-- The messages and collected ranks of the whole `validate_sections` loop,
described compositionally: one block of messages per section, in order. -/
def allMsgs : Nat → List PyDict → List String × List Int
  | _, [] => ([], [])
  | i, d :: ds =>
    (sectionMsgs i d ++ (allMsgs (i + 1) ds).1,
     (rankMsgsRanks i d).2 ++ (allMsgs (i + 1) ds).2)

/-- Does the dictionary hold string `title` and `content` entries (so that
dictionary-level scoring cannot raise)? -/
def goodSectionDict (d : PyDict) : Bool :=
  (match dictGet d "title" with
   | some (.VStr _) => true
   | _ => false) &&
  (match dictGet d "content" with
   | some (.VStr _) => true
   | _ => false)

/-- Is `r` a reference to a well-formed section dictionary of the store? -/
def goodRef (store : List PyDict) (r : Nat) : Bool :=
  match store[r]? with
  | some d => goodSectionDict d
  | none => false

/-- One header line plus one content line, used to build concrete documents. -/
def sampleUnit : String := "AAA\nabcdefghijkl\n"

/-- A document whose extraction yields 12 sections. -/
def sampleText12 : String :=
  sampleUnit ++ sampleUnit ++ sampleUnit ++ sampleUnit ++ sampleUnit ++ sampleUnit ++
  sampleUnit ++ sampleUnit ++ sampleUnit ++ sampleUnit ++ sampleUnit ++ sampleUnit

/-- A concrete two-section list for witnesses. -/
def sampleSections2 : List Section :=
  [⟨"Intro", "alpha beta", 1⟩, ⟨"Body", "gamma delta", 2⟩]

/-- A fully well-formed section dictionary. -/
def goodDictA : PyDict :=
  [("title", PyVal.VStr "Overview"),
   ("content", PyVal.VStr "a long enough content"),
   ("page_number", PyVal.VInt 1),
   ("importance_rank", PyVal.VInt 1),
   ("relevance_score", PyVal.VFloat (1/2))]

/-- A section dictionary with several violations (missing fields, short
title) but string-typed title, so validation collects messages without
raising. -/
def badDictB : PyDict := [("title", PyVal.VStr "x")]

/-- A concrete two-dictionary section list for the validator witness. -/
def sampleDicts : List PyDict := [goodDictA, badDictB]

/-- A one-dictionary store for the no-mutation witness. -/
def sampleStore : List PyDict :=
  [[("title", PyVal.VStr "Overview"),
    ("content", PyVal.VStr "growth and strategy"),
    ("page_number", PyVal.VInt 1)]]

/-- Every whitespace character of the list is a plain space (the shape
`re.sub(r'\s+', ' ', ...)` leaves behind). -/
def wsOnly (t : List Char) : Bool :=
  t.all (fun c => !isSpaceChar c || c == ' ')

/-- No two adjacent whitespace characters. -/
def noAdjWS : List Char → Bool
  | c :: d :: cs => (!(isSpaceChar c && isSpaceChar d)) && noAdjWS (d :: cs)
  | _ => true

/-- No whitespace character whose next non-whitespace character is
punctuation: exactly the inputs on which `stepPunctWS` is the identity. -/
def noWSThenPunct : List Char → Bool
  | [] => true
  | c :: cs => (!isSpaceChar c || !headIsPunctAfterWS cs) && noWSThenPunct cs

/-- No two adjacent copies of `p`: exactly the inputs on which
`collapseChar p` is the identity. -/
def noRunOf (p : Char) : List Char → Bool
  | c :: d :: cs => (!(c == p && d == p)) && noRunOf p (d :: cs)
  | _ => true

/-- No run of two or more repeated `.`, `!` or `?` characters. -/
def noPunctRun (t : List Char) : Bool :=
  noRunOf '.' t && noRunOf '!' t && noRunOf '?' t

/-- The first character, if any, is not whitespace. -/
def headNotWS (t : List Char) : Bool :=
  match t.head? with
  | none => true
  | some c => !isSpaceChar c

/-- The last character, if any, is not whitespace. -/
def lastNotWS (t : List Char) : Bool :=
  match t.getLast? with
  | none => true
  | some c => !isSpaceChar c

example : clean_text "  hello   world  " = "hello world" := by decide
example : clean_text ". ." = ".." := by decide
example : clean_text ".." = "." := by decide
example : countOcc "aa".data "aaaa".data = 2 := by decide
example : extract_sections "TITLE:\nhello brave new world" =
    [⟨"TITLE", "hello brave new world", 1⟩] := by decide
example :
    calculate_section_score ⟨"Executive Summary", "strategy strategy strategy market", 1⟩
      "executive" = 3/5 := by decide
example :
    (prioritize_sections [⟨"Market Analysis", "growth growth market", 1⟩,
      ⟨"Appendix", "nothing here", 2⟩] "executive").map
        (fun r => (r.importance_rank, r.relevance_score)) = [(1, 4/5), (2, 0)] := by decide

/-! ## Score bounds (claims C4, C5, C6) -/

theorem foldl_titleScore_le {keywords : List String} {titleLower : String} :
    ∀ a : ℚ, a ≤ keywords.foldl
      (fun acc kw => if substrOf (strLower kw) titleLower then acc + 3/10 else acc) a := by
  induction keywords with
  | nil => intro a; simp
  | cons kw kws ih =>
    intro a
    simp only [List.foldl_cons]
    split
    · exact le_trans (by linarith) (ih (a + 3/10))
    · exact ih a

theorem titleScore_nonneg (keywords : List String) (titleLower : String) :
    0 ≤ titleScore keywords titleLower :=
  foldl_titleScore_le 0

theorem foldl_contentScore_le {keywords : List String} {contentLower : String} :
    ∀ a : ℚ, a ≤ keywords.foldl
      (fun acc kw =>
        acc + min ((countOcc (strLower kw).data contentLower.data : ℚ) * (1/10)) (1/2)) a := by
  induction keywords with
  | nil => intro a; simp
  | cons kw kws ih =>
    intro a
    simp only [List.foldl_cons]
    refine le_trans ?_ (ih _)
    have h1 : (0 : ℚ) ≤ (countOcc (strLower kw).data contentLower.data : ℚ) * (1/10) := by
      positivity
    have h2 : (0 : ℚ) ≤ (1 : ℚ)/2 := by norm_num
    have := le_min h1 h2
    linarith

theorem contentScore_nonneg (keywords : List String) (contentLower : String) :
    0 ≤ contentScore keywords contentLower :=
  foldl_contentScore_le 0

theorem priorityBonus_cases (phrases : List String) (titleLower : String) :
    priorityBonus phrases titleLower = 0 ∨ priorityBonus phrases titleLower = 1/5 := by
  induction phrases with
  | nil => left; rfl
  | cons p ps ih =>
    simp only [priorityBonus]
    split
    · right; rfl
    · exact ih

theorem priorityBonus_nonneg (phrases : List String) (titleLower : String) :
    0 ≤ priorityBonus phrases titleLower := by
  rcases priorityBonus_cases phrases titleLower with h | h
  all_goals rw [h]
  all_goals norm_num

theorem priorityBonus_le (phrases : List String) (titleLower : String) :
    priorityBonus phrases titleLower ≤ 1/5 := by
  rcases priorityBonus_cases phrases titleLower with h | h
  all_goals rw [h]
  all_goals norm_num

/-- Claim C4: for every section (arbitrary title and content strings) and
every persona name (in particular each of the four configured ones), the
score returned by `calculate_section_score` lies in the closed interval
[0, 1]. -/
theorem claim4_score_bounded (s : Section) (persona : String) :
    0 ≤ calculate_section_score s persona ∧ calculate_section_score s persona ≤ 1 := by
  unfold calculate_section_score
  cases h : personaLookup persona with
  | none => exact ⟨le_refl 0, by norm_num⟩
  | some kv =>
    obtain ⟨keywords, priority_sections⟩ := kv
    constructor
    · refine le_min ?_ (by norm_num)
      have h1 := titleScore_nonneg keywords (strLower s.title)
      have h2 := contentScore_nonneg keywords (strLower s.content)
      have h3 := priorityBonus_nonneg priority_sections (strLower s.title)
      linarith
    · exact min_le_right _ _

/-- Claim C5: the priority bonus is a flat 0.2 exactly when some configured
phrase is a case-insensitive substring of the title, and 0 otherwise — the
scan stops at the first match, so the bonus is never cumulative and
contributes at most 0.2. -/
theorem claim5_priority_bonus (phrases : List String) (titleLower : String) :
    priorityBonus phrases titleLower =
      (if phrases.any (fun p => substrOf (strLower p) titleLower) then 1/5 else 0) ∧
    priorityBonus phrases titleLower ≤ 1/5 := by
  refine ⟨?_, priorityBonus_le phrases titleLower⟩
  induction phrases with
  | nil => rfl
  | cons p ps ih =>
    simp only [priorityBonus, List.any_cons]
    by_cases hp : substrOf (strLower p) titleLower
    · simp [hp]
    · simp [hp, ih]

/-- Claim C6 counterexample: scored against the executive persona, the title
"Executive Summary" contains no executive keyword, so the title term is 0.0,
not the 0.3 the claim states. -/
theorem claim6_counterexample :
    (personaLookup "executive").map
      (fun kv => titleScore kv.1 (strLower "Executive Summary")) ≠ some (3/10) := by
  decide

/-- Claim C6 (amended): for the section with title "Executive Summary" and
content repeating "strategy" three times and "market" once, scored against
the executive persona, the title term is 0.0 (no keyword occurs in the
title), the content term is 0.4, the priority bonus is 0.2 (the phrase
"executive summary" matches), and the total score is 0.6. -/
theorem claim6_amended :
    (personaLookup "executive").map
      (fun kv =>
        (titleScore kv.1 (strLower "Executive Summary"),
         contentScore kv.1 (strLower "strategy strategy strategy market"),
         priorityBonus kv.2 (strLower "Executive Summary"))) = some (0, 2/5, 1/5) ∧
    calculate_section_score
      ⟨"Executive Summary", "strategy strategy strategy market", 1⟩ "executive" = 3/5 := by
  constructor
  · decide
  · decide

/-! ## Extraction post-filter (claim C8) -/

/-- Claim C8: every section returned by `extract_sections` has a title that
is non-blank after normalization, non-blank (cleaned) content, and content
longer than 10 characters — any candidate with normalized content length
≤ 10 has been dropped by the post-filter. -/
theorem claim8_post_filter (text : String) (s : Section)
    (h : s ∈ extract_sections text) :
    pyStripStr s.title ≠ "" ∧ pyStripStr s.content ≠ "" ∧ 10 < s.content.length := by
  have h2 := List.mem_filter.mp h
  have hb := h2.2
  simp only [Bool.and_eq_true, bne_iff_ne, ne_eq, decide_eq_true_eq] at hb
  exact ⟨hb.1.1, hb.1.2, hb.2⟩

/-- Claim C8 witness: a concrete two-line document and its extracted
section. -/
theorem claim8_witness :
    ((⟨"TITLE", "hello brave new world", 1⟩ : Section) ∈
      extract_sections "TITLE:\nhello brave new world") ∧
    (pyStripStr (Section.mk "TITLE" "hello brave new world" 1).title ≠ "" ∧
     pyStripStr (Section.mk "TITLE" "hello brave new world" 1).content ≠ "" ∧
     10 < (Section.mk "TITLE" "hello brave new world" 1).content.length) :=
  ⟨by decide, claim8_post_filter "TITLE:\nhello brave new world" _ (by decide)⟩

/-! ## Ranker lemmas (claims C1, C7, C2) -/

theorem mem_insertDescBy {α : Type} (key : α → ℚ) (x z : α) (l : List α)
    (h : z ∈ insertDescBy key x l) : z = x ∨ z ∈ l := by
  induction l with
  | nil =>
    simp only [insertDescBy, List.mem_singleton] at h
    exact Or.inl h
  | cons y ys ih =>
    simp only [insertDescBy] at h
    split at h
    · rcases List.mem_cons.mp h with hz | hz
      · exact Or.inr (List.mem_cons.mpr (Or.inl hz))
      · rcases ih hz with hz2 | hz2
        · exact Or.inl hz2
        · exact Or.inr (List.mem_cons.mpr (Or.inr hz2))
    · rcases List.mem_cons.mp h with hz | hz
      · exact Or.inl hz
      · exact Or.inr hz

theorem pairwise_insertDescBy {α : Type} (key : α → ℚ) (x : α) (l : List α)
    (hl : l.Pairwise (fun a b => key b ≤ key a)) :
    (insertDescBy key x l).Pairwise (fun a b => key b ≤ key a) := by
  induction l with
  | nil => simp [insertDescBy]
  | cons y ys ih =>
    rcases List.pairwise_cons.mp hl with ⟨hy, hys⟩
    simp only [insertDescBy]
    by_cases hgt : key y > key x
    · rw [if_pos hgt]
      refine List.pairwise_cons.mpr ⟨?_, ih hys⟩
      intro b hb
      rcases mem_insertDescBy key x b ys hb with hb2 | hb2
      · subst hb2; linarith
      · exact hy b hb2
    · rw [if_neg hgt]
      refine List.pairwise_cons.mpr ⟨?_, hl⟩
      intro b hb
      rcases List.mem_cons.mp hb with hb2 | hb2
      · subst hb2; linarith [not_lt.mp hgt]
      · exact le_trans (hy b hb2) (not_lt.mp hgt)

theorem pairwise_sortDescBy {α : Type} (key : α → ℚ) (l : List α) :
    (sortDescBy key l).Pairwise (fun a b => key b ≤ key a) := by
  induction l with
  | nil => simp [sortDescBy]
  | cons x xs ih => exact pairwise_insertDescBy key x (sortDescBy key xs) ih

theorem length_insertDescBy {α : Type} (key : α → ℚ) (x : α) (l : List α) :
    (insertDescBy key x l).length = l.length + 1 := by
  induction l with
  | nil => rfl
  | cons y ys ih =>
    simp only [insertDescBy]
    split
    · simp [ih]
    · simp

theorem length_sortDescBy {α : Type} (key : α → ℚ) (l : List α) :
    (sortDescBy key l).length = l.length := by
  induction l with
  | nil => rfl
  | cons x xs ih => simp [sortDescBy, length_insertDescBy, ih]

theorem filter_insertDescBy {α : Type} (key : α → ℚ) (x : α) (l : List α) (q : ℚ) :
    (insertDescBy key x l).filter (fun z => decide (key z = q)) =
      if key x = q then x :: l.filter (fun z => decide (key z = q))
      else l.filter (fun z => decide (key z = q)) := by
  induction l with
  | nil =>
    by_cases hx : key x = q
    · simp [insertDescBy, hx]
    · simp [insertDescBy, hx]
  | cons y ys ih =>
    simp only [insertDescBy]
    by_cases hgt : key y > key x
    · rw [if_pos hgt]
      by_cases hx : key x = q
      · have hy : ¬ key y = q := by
          intro hyq
          rw [hyq, ← hx] at hgt
          exact lt_irrefl _ hgt
        rw [List.filter_cons_of_neg (by simpa using hy), ih, if_pos hx, if_pos hx,
          List.filter_cons_of_neg (by simpa using hy)]
      · by_cases hy : key y = q
        · rw [List.filter_cons_of_pos (by simpa using hy), ih, if_neg hx, if_neg hx,
            List.filter_cons_of_pos (by simpa using hy)]
        · rw [List.filter_cons_of_neg (by simpa using hy), ih, if_neg hx, if_neg hx,
            List.filter_cons_of_neg (by simpa using hy)]
    · rw [if_neg hgt]
      by_cases hx : key x = q
      · rw [if_pos hx, List.filter_cons_of_pos (by simpa using hx)]
      · rw [if_neg hx, List.filter_cons_of_neg (by simpa using hx)]

theorem filter_sortDescBy {α : Type} (key : α → ℚ) (l : List α) (q : ℚ) :
    (sortDescBy key l).filter (fun z => decide (key z = q)) =
      l.filter (fun z => decide (key z = q)) := by
  induction l with
  | nil => rfl
  | cons x xs ih =>
    show (insertDescBy key x (sortDescBy key xs)).filter _ = _
    rw [filter_insertDescBy]
    by_cases hx : key x = q
    · rw [if_pos hx, ih, List.filter_cons_of_pos (by simpa using hx)]
    · rw [if_neg hx, ih, List.filter_cons_of_neg (by simpa using hx)]

theorem insertDescBy_of_const {α : Type} (key : α → ℚ) (x : α) (l : List α) (c : ℚ)
    (hx : key x = c) (hl : ∀ y ∈ l, key y = c) :
    insertDescBy key x l = x :: l := by
  cases l with
  | nil => rfl
  | cons y ys =>
    have hy : key y = c := hl y (List.mem_cons_self y ys)
    simp only [insertDescBy]
    rw [if_neg]
    rw [hx, hy]
    exact lt_irrefl c

theorem sortDescBy_of_const {α : Type} (key : α → ℚ) (l : List α) (c : ℚ)
    (hl : ∀ y ∈ l, key y = c) : sortDescBy key l = l := by
  induction l with
  | nil => rfl
  | cons x xs ih =>
    show insertDescBy key x (sortDescBy key xs) = x :: xs
    have hxs : ∀ y ∈ xs, key y = c := fun y hy => hl y (List.mem_cons_of_mem x hy)
    rw [ih hxs]
    exact insertDescBy_of_const key x xs c (hl x (List.mem_cons_self x xs)) hxs

theorem map_rank_addRanks (i : Nat) (l : List ScoredSection) :
    (addRanks i l).map (fun r => r.importance_rank) = List.range' (i + 1) l.length := by
  induction l generalizing i with
  | nil => rfl
  | cons x xs ih =>
    simp only [addRanks, List.map_cons, List.length_cons, List.range'_succ]
    exact congrArg (List.cons (i + 1)) (ih (i + 1))

theorem map_score_addRanks (i : Nat) (l : List ScoredSection) :
    (addRanks i l).map (fun r => r.relevance_score) =
      l.map (fun x => round2 x.relevance_score) := by
  induction l generalizing i with
  | nil => rfl
  | cons x xs ih => simp [addRanks, ih]

theorem take_addRanks (n i : Nat) (l : List ScoredSection) :
    (addRanks i l).take n = addRanks i (l.take n) := by
  induction l generalizing i n with
  | nil => simp [addRanks]
  | cons x xs ih =>
    cases n with
    | zero => simp [addRanks]
    | succ m => simp [addRanks, List.take_succ_cons, ih]

theorem round2_mono {a b : ℚ} (h : a ≤ b) : round2 a ≤ round2 b := by
  unfold round2
  have hr : round (a * 100) ≤ round (b * 100) := by
    rw [round_eq, round_eq]
    exact Int.floor_mono (by linarith)
  have hq : ((round (a * 100) : ℤ) : ℚ) ≤ ((round (b * 100) : ℤ) : ℚ) := by
    exact_mod_cast hr
  linarith

/-- Claim C1: for every section list and persona, the `importance_rank`
values of the ranked output are exactly 1..N in list order (an exact
permutation of `{1..N}` with no gaps or duplicates), the output
`relevance_score` values are monotonically non-increasing as
`importance_rank` increases, and the stable sort keeps sections with equal
scores in their original extraction order (for each score value, the ranked
subsequence with that score equals the corresponding subsequence of the
scored input). -/
theorem claim1_ranker (sections : List Section) (persona : String) :
    (prioritize_sections sections persona).map (fun r => r.importance_rank) =
      List.range' 1 sections.length ∧
    ((prioritize_sections sections persona).map (fun r => r.relevance_score)).Pairwise
      (fun a b => b ≤ a) ∧
    ∀ q : ℚ,
      (sortDescBy (fun x => x.relevance_score) (sections.map (scoreSection persona))).filter
        (fun z => decide (z.relevance_score = q)) =
        (sections.map (scoreSection persona)).filter
          (fun z => decide (z.relevance_score = q)) := by
  refine ⟨?_, ?_, ?_⟩
  · unfold prioritize_sections
    rw [map_rank_addRanks, length_sortDescBy, List.length_map]
  · unfold prioritize_sections
    rw [map_score_addRanks]
    have hs := pairwise_sortDescBy (fun x : ScoredSection => x.relevance_score)
      (sections.map (scoreSection persona))
    rw [List.pairwise_map]
    exact hs.imp (fun h => round2_mono h)
  · intro q
    exact filter_sortDescBy _ _ q

/-- Claim C7: a persona name outside the configured table makes
`calculate_section_score` return 0.0 for every section (no lookup error), so
ranking is fully tied: the sort leaves the list in extraction order and the
ranks are just 1, 2, ... in that order. -/
theorem claim7_unknown_persona (persona : String) (sections : List Section)
    (h : personaLookup persona = none) :
    sections.map (fun s => calculate_section_score s persona) =
      List.replicate sections.length 0 ∧
    prioritize_sections sections persona =
      addRanks 0 (sections.map (scoreSection persona)) := by
  have hz : ∀ s : Section, calculate_section_score s persona = 0 := by
    intro s
    unfold calculate_section_score
    rw [h]
  constructor
  · induction sections with
    | nil => rfl
    | cons s ss ih => simp [hz, ih, List.replicate_succ]
  · unfold prioritize_sections
    congr 1
    apply sortDescBy_of_const _ _ 0
    intro y hy
    rcases List.mem_map.mp hy with ⟨s, _, rfl⟩
    exact hz s

/-- Claim C7 witness: the unknown persona "ceo" on a concrete two-section
list. -/
theorem claim7_witness :
    personaLookup "ceo" = none ∧
    (sampleSections2.map (fun s => calculate_section_score s "ceo") =
      List.replicate sampleSections2.length 0 ∧
     prioritize_sections sampleSections2 "ceo" =
      addRanks 0 (sampleSections2.map (scoreSection "ceo"))) :=
  ⟨by decide, claim7_unknown_persona "ceo" sampleSections2 (by decide)⟩

theorem extract_sections_of_empty : extract_sections "" = [] := by decide

/-- Claim C2: when extraction yields more than 10 sections, the stored
record keeps only the first 10 sections of the ranked sequence, their ranks
are the ones computed over the full section set (the prefix 1..10 of the
full 1..N assignment, not a renumbering after slicing), and
`total_sections` is the full pre-truncation count. -/
theorem claim2_truncation (docName text persona timestamp : String)
    (h : 10 < (extract_sections text).length) :
    ∃ rec : ResultRecord,
      process_document docName text persona timestamp = some rec ∧
      rec.total_sections = (extract_sections text).length ∧
      rec.sections = (prioritize_sections (extract_sections text) persona).take 10 ∧
      rec.sections.map (fun r => r.importance_rank) = List.range' 1 10 := by
  have htext : text ≠ "" := by
    intro he
    rw [he, extract_sections_of_empty] at h
    simp at h
  have hp : process_document docName text persona timestamp = some
      { document := docName
        persona := persona
        job_to_be_done := "Prioritize document sections for " ++ persona ++
          " persona based on relevance and importance"
        processing_timestamp := timestamp
        total_sections := (extract_sections text).length
        sections := (prioritize_sections (extract_sections text) persona).take 10 } := by
    simp only [process_document, if_neg htext]
  refine ⟨_, hp, rfl, rfl, ?_⟩
  · show ((prioritize_sections (extract_sections text) persona).take 10).map
      (fun r => r.importance_rank) = List.range' 1 10
    unfold prioritize_sections
    rw [take_addRanks, map_rank_addRanks, List.length_take, length_sortDescBy,
      List.length_map]
    congr 1
    omega

/-- Claim C2 witness: a 12-section document, processed for the executive
persona. -/
theorem claim2_witness :
    10 < (extract_sections sampleText12).length ∧
    (∃ rec : ResultRecord,
      process_document "doc.pdf" sampleText12 "executive" "2024-01-01T00:00:00" = some rec ∧
      rec.total_sections = (extract_sections sampleText12).length ∧
      rec.sections =
        (prioritize_sections (extract_sections sampleText12) "executive").take 10 ∧
      rec.sections.map (fun r => r.importance_rank) = List.range' 1 10) :=
  ⟨by decide, claim2_truncation "doc.pdf" sampleText12 "executive" "2024-01-01T00:00:00"
    (by decide)⟩

/-! ## Validators (claim C9) -/

theorem titleMsgs_ok (i : Nat) (d : PyDict)
    (h : (match dictGet d "title" with
          | some v => isStrVal v
          | none => true) = true) :
    titleMsgs i d = Except.ok (titleMsgsP i d) := by
  unfold titleMsgs titleMsgsP
  rcases hv : dictGet d "title" with _ | v
  · rfl
  · rw [hv] at h
    cases v
    case VStr s => rfl
    all_goals simp [isStrVal] at h

theorem contentMsgs_ok (i : Nat) (d : PyDict)
    (h : (match dictGet d "content" with
          | some v => isStrVal v
          | none => true) = true) :
    contentMsgs i d = Except.ok (contentMsgsP i d) := by
  unfold contentMsgs contentMsgsP
  rcases hv : dictGet d "content" with _ | v
  · rfl
  · rw [hv] at h
    cases v
    case VStr s => rfl
    all_goals simp [isStrVal] at h

theorem checkSection_ok (i : Nat) (d : PyDict) (h : goodTC d = true) :
    checkSection i d = Except.ok (sectionMsgs i d, (rankMsgsRanks i d).2) := by
  unfold goodTC at h
  rw [Bool.and_eq_true] at h
  unfold checkSection
  rw [titleMsgs_ok i d h.1, contentMsgs_ok i d h.2]
  rfl

theorem validateLoop_ok (ds : List PyDict) :
    ∀ i, (∀ d ∈ ds, goodTC d = true) →
      validateLoop i ds = Except.ok (allMsgs i ds) := by
  induction ds with
  | nil => intro i _; rfl
  | cons d ds ih =>
    intro i h
    have hd := h d (List.mem_cons_self d ds)
    have hds : ∀ x ∈ ds, goodTC x = true := fun x hx => h x (List.mem_cons_of_mem d hx)
    show validateLoop i (d :: ds) = _
    simp only [validateLoop, checkSection_ok i d hd, ih (i + 1) hds, allMsgs]

/-- Claim C9 counterexample: `validate_sections` raises (an
`AttributeError` from `.strip()`) on a section whose `title` is the integer
3, so the validators do not return an error list for every input. -/
theorem claim9_counterexample :
    validationOk [[("title", PyVal.VInt 3)]] = false := by decide

/-- Claim C9 (amended): `validate_json_structure` never raises and returns
at most one message (the underlying `jsonschema.validate` call stops at the
first violation); `validate_sections` never raises and collects every
violation — one message block per section, in order, plus the final
rank-set message — provided each present `title`/`content` value is a
string, but it raises on a section whose title or content is not a
string. -/
theorem claim9_amended_validators (sections : List PyDict)
    (h : sections.all goodTC = true) :
    validate_sections sections =
      Except.ok ((allMsgs 0 sections).1 ++
        rankSetMsgs sections.length (allMsgs 0 sections).2) ∧
    ∀ data : PyVal, (validate_json_structure data).length ≤ 1 := by
  constructor
  · have h2 : ∀ d ∈ sections, goodTC d = true := fun d hd => List.all_eq_true.mp h d hd
    unfold validate_sections
    rw [validateLoop_ok sections 0 h2]
  · intro data
    unfold validate_json_structure
    cases jsonschemaValidate data
    · simp
    · simp

/-- Claim C9 witness: a well-formed dictionary plus one with several
violations; validation returns normally with the collected messages. -/
theorem claim9_witness :
    sampleDicts.all goodTC = true ∧
    (validate_sections sampleDicts =
      Except.ok ((allMsgs 0 sampleDicts).1 ++
        rankSetMsgs sampleDicts.length (allMsgs 0 sampleDicts).2) ∧
     ∀ data : PyVal, (validate_json_structure data).length ≤ 1) :=
  ⟨by decide, claim9_amended_validators sampleDicts (by decide)⟩

/-! ## The store-level ranker does not mutate its input (claim C10) -/

theorem getElem?_of_prefix {α : Type} {l₁ l₂ : List α} (h : l₁ <+: l₂) {r : Nat}
    (hr : r < l₁.length) : l₂[r]? = l₁[r]? := by
  obtain ⟨t, rfl⟩ := h
  exact List.getElem?_append_left hr

theorem goodSectionDict_title {d : PyDict} (h : goodSectionDict d = true) :
    ∃ t, dictGet d "title" = some (PyVal.VStr t) := by
  unfold goodSectionDict at h
  rw [Bool.and_eq_true] at h
  have h1 := h.1
  rcases hv : dictGet d "title" with _ | v
  · rw [hv] at h1; simp at h1
  · rw [hv] at h1
    cases v
    case VStr s => exact ⟨s, rfl⟩
    all_goals simp at h1

theorem goodSectionDict_content {d : PyDict} (h : goodSectionDict d = true) :
    ∃ t, dictGet d "content" = some (PyVal.VStr t) := by
  unfold goodSectionDict at h
  rw [Bool.and_eq_true] at h
  have h1 := h.2
  rcases hv : dictGet d "content" with _ | v
  · rw [hv] at h1; simp at h1
  · rw [hv] at h1
    cases v
    case VStr s => exact ⟨s, rfl⟩
    all_goals simp at h1

theorem calcScoreD_isSome (d : PyDict) (persona : String)
    (h : goodSectionDict d = true) : ∃ q, calcScoreD d persona = some q := by
  obtain ⟨t, ht⟩ := goodSectionDict_title h
  obtain ⟨c, hc⟩ := goodSectionDict_content h
  unfold calcScoreD
  by_cases hp : (personaLookup persona).isNone
  · rw [if_pos hp]; exact ⟨0, rfl⟩
  · rw [if_neg hp, ht, hc]
    exact ⟨_, rfl⟩

theorem scoreLoop_ok (persona : String) :
    ∀ (rs : List Nat) (store : List PyDict),
      (∀ r ∈ rs, goodRef store r = true) →
      ∃ st outs, scoreLoop persona store rs = some (st, outs) ∧
        store <+: st ∧ ∀ o ∈ outs, store.length ≤ o ∧ o < st.length := by
  intro rs
  induction rs with
  | nil =>
    intro store _
    exact ⟨store, [], rfl, List.prefix_refl _, by simp⟩
  | cons r rs ih =>
    intro store h
    have hr := h r (List.mem_cons_self r rs)
    unfold goodRef at hr
    rcases hd : store[r]? with _ | d
    · rw [hd] at hr; simp at hr
    · rw [hd] at hr
      obtain ⟨q, hq⟩ := calcScoreD_isSome d persona hr
      have hgood2 : ∀ x ∈ rs,
          goodRef (store ++ [dictSet (dictCopy d) "relevance_score" (.VFloat q)]) x = true := by
        intro x hx
        have hgx := h x (List.mem_cons_of_mem r hx)
        unfold goodRef at hgx ⊢
        rcases hsx : store[x]? with _ | dx
        · rw [hsx] at hgx; simp at hgx
        · have hxlt : x < store.length := by
            by_contra hge
            rw [List.getElem?_eq_none (le_of_not_lt hge)] at hsx
            exact Option.noConfusion hsx
          rw [List.getElem?_append_left hxlt, hsx]
          rw [hsx] at hgx
          exact hgx
      obtain ⟨st, outs, hrun, hpre, hbound⟩ :=
        ih (store ++ [dictSet (dictCopy d) "relevance_score" (.VFloat q)]) hgood2
      refine ⟨st, store.length :: outs, ?_, ?_, ?_⟩
      · show scoreLoop persona store (r :: rs) = _
        simp only [scoreLoop, hd, hq, hrun]
      · exact List.IsPrefix.trans (List.prefix_append store _) hpre
      · intro o ho
        rcases List.mem_cons.mp ho with rfl | ho2
        · refine ⟨le_refl _, ?_⟩
          have h1 : store.length <
              (store ++ [dictSet (dictCopy d) "relevance_score" (.VFloat q)]).length := by
            simp
          exact lt_of_lt_of_le h1 hpre.length_le
        · have hb := hbound o ho2
          have hlen : (store ++ [dictSet (dictCopy d) "relevance_score" (.VFloat q)]).length =
              store.length + 1 := by simp
          rw [hlen] at hb
          exact ⟨by omega, hb.2⟩

theorem rankLoop_frame (n : Nat) :
    ∀ (outs : List Nat) (store : List PyDict) (i : Nat),
      (∀ o ∈ outs, n ≤ o) → ∀ r, r < n → (rankLoop store outs i)[r]? = store[r]? := by
  intro outs
  induction outs with
  | nil => intro store i _ r _; rfl
  | cons o os ih =>
    intro store i h r hr
    have ho := h o (List.mem_cons_self o os)
    have hos : ∀ x ∈ os, n ≤ x := fun x hx => h x (List.mem_cons_of_mem o hx)
    have hne : o ≠ r := by omega
    rcases hd : store[o]? with _ | d
    · simp only [rankLoop, hd]
      exact ih store (i + 1) hos r hr
    · simp only [rankLoop, hd]
      rw [ih _ (i + 1) hos r hr]
      exact List.getElem?_set_ne hne

theorem mem_sortDescBy {α : Type} (key : α → ℚ) (l : List α) (z : α)
    (h : z ∈ sortDescBy key l) : z ∈ l := by
  induction l with
  | nil => simp [sortDescBy] at h
  | cons x xs ih =>
    rcases mem_insertDescBy key x z (sortDescBy key xs) h with rfl | h2
    · exact List.mem_cons_self _ _
    · exact List.mem_cons_of_mem x (ih h2)

/-- Claim C10: the store-level `prioritize_sections` never mutates the input
dictionaries: every input reference still resolves to exactly its original
dictionary in the final store (original title/content/page_number entries,
no `relevance_score` or `importance_rank` key added), and every output
reference is a freshly allocated copy (an index past the original store). -/
theorem claim10_no_mutation (store : List PyDict) (sections : List Nat) (persona : String)
    (h : sections.all (goodRef store) = true) :
    ∃ store2 outs, prioritizeHeap store sections persona = some (store2, outs) ∧
      (∀ r ∈ sections, store2[r]? = store[r]?) ∧
      (∀ o ∈ outs, store.length ≤ o) := by
  have h2 : ∀ r ∈ sections, goodRef store r = true :=
    fun r hr => List.all_eq_true.mp h r hr
  obtain ⟨st, outs, hrun, hpre, hbound⟩ := scoreLoop_ok persona sections store h2
  refine ⟨rankLoop st (sortDescBy (refScore st) outs) 0, sortDescBy (refScore st) outs,
    ?_, ?_, ?_⟩
  · unfold prioritizeHeap
    rw [hrun]
  · intro r hrmem
    have hrlt : r < store.length := by
      have hg := h2 r hrmem
      unfold goodRef at hg
      rcases hgr : store[r]? with _ | d
      · rw [hgr] at hg; simp at hg
      · by_contra hge
        rw [List.getElem?_eq_none (le_of_not_lt hge)] at hgr
        exact Option.noConfusion hgr
    have hsort : ∀ o ∈ sortDescBy (refScore st) outs, store.length ≤ o :=
      fun o ho => (hbound o (mem_sortDescBy _ _ o ho)).1
    rw [rankLoop_frame store.length _ st 0 hsort r hrlt]
    exact getElem?_of_prefix hpre hrlt
  · intro o ho
    exact (hbound o (mem_sortDescBy _ _ o ho)).1

/-- Claim C10 witness: one well-formed dictionary in the store, ranked for
the executive persona. -/
theorem claim10_witness :
    ([0].all (goodRef sampleStore) = true) ∧
    (∃ store2 outs, prioritizeHeap sampleStore [0] "executive" = some (store2, outs) ∧
      (∀ r ∈ [0], store2[r]? = sampleStore[r]?) ∧
      (∀ o ∈ outs, sampleStore.length ≤ o)) :=
  ⟨by decide, claim10_no_mutation sampleStore [0] "executive" (by decide)⟩

/-! ## The text normalizer (claim C3) -/

theorem wsOnly_tail {c : Char} {cs : List Char} (h : wsOnly (c :: cs) = true) :
    wsOnly cs = true := by
  unfold wsOnly at *
  rw [List.all_cons, Bool.and_eq_true] at h
  exact h.2

theorem wsOnly_head {c : Char} {cs : List Char} (h : wsOnly (c :: cs) = true)
    (hc : isSpaceChar c = true) : c = ' ' := by
  unfold wsOnly at h
  rw [List.all_cons, Bool.and_eq_true] at h
  have h1 := h.1
  rw [hc] at h1
  simpa using h1

theorem noAdjWS_tail {c : Char} {cs : List Char} (h : noAdjWS (c :: cs) = true) :
    noAdjWS cs = true := by
  cases cs with
  | nil => rfl
  | cons d ds =>
    unfold noAdjWS at h
    rw [Bool.and_eq_true] at h
    exact h.2

theorem noAdjWS_head {c : Char} {cs : List Char} (h : noAdjWS (c :: cs) = true)
    (hc : isSpaceChar c = true) : headNotWS cs = true := by
  cases cs with
  | nil => rfl
  | cons d ds =>
    unfold noAdjWS at h
    rw [Bool.and_eq_true] at h
    have h1 := h.1
    rw [hc] at h1
    simp at h1
    simp [headNotWS, h1]

theorem noAdjWS_cons {c : Char} {X : List Char}
    (h1 : isSpaceChar c = false ∨ headNotWS X = true) (h2 : noAdjWS X = true) :
    noAdjWS (c :: X) = true := by
  cases X with
  | nil => rfl
  | cons d ds =>
    unfold noAdjWS
    rw [Bool.and_eq_true]
    refine ⟨?_, h2⟩
    rcases h1 with h1 | h1
    · simp [h1]
    · simp only [headNotWS, List.head?_cons] at h1
      simp at h1
      simp [h1]

theorem noWSThenPunct_tail {c : Char} {cs : List Char}
    (h : noWSThenPunct (c :: cs) = true) : noWSThenPunct cs = true := by
  unfold noWSThenPunct at h
  rw [Bool.and_eq_true] at h
  exact h.2

theorem noRunOf_tail {p c : Char} {cs : List Char} (h : noRunOf p (c :: cs) = true) :
    noRunOf p cs = true := by
  cases cs with
  | nil => rfl
  | cons d ds =>
    unfold noRunOf at h
    rw [Bool.and_eq_true] at h
    exact h.2

theorem dropWhile_ws_id {t : List Char} (h : headNotWS t = true) :
    t.dropWhile isSpaceChar = t := by
  cases t with
  | nil => rfl
  | cons c cs =>
    simp only [headNotWS, List.head?_cons] at h
    simp at h
    simp [List.dropWhile_cons, h]

theorem headNotWS_reverse (t : List Char) : headNotWS t.reverse = lastNotWS t := by
  unfold headNotWS lastNotWS
  rw [List.head?_reverse]

theorem pyStrip_id {t : List Char} (h1 : headNotWS t = true) (h2 : lastNotWS t = true) :
    pyStrip t = t := by
  unfold pyStrip
  rw [dropWhile_ws_id h1]
  rw [dropWhile_ws_id (by rw [headNotWS_reverse]; exact h2)]
  exact List.reverse_reverse t

theorem squeezeWSAux_id : ∀ (t : List Char) (b : Bool),
    wsOnly t = true → noAdjWS t = true → (b = true → headNotWS t = true) →
    squeezeWSAux b t = t := by
  intro t
  induction t with
  | nil => intro b _ _ _; rfl
  | cons c cs ih =>
    intro b hws hadj hb
    unfold squeezeWSAux
    by_cases hc : isSpaceChar c = true
    · rw [if_pos hc]
      have hbf : b = false := by
        cases b
        · rfl
        · have hh := hb rfl
          simp only [headNotWS, List.head?_cons] at hh
          simp [hc] at hh
      subst hbf
      have hceq : c = ' ' := wsOnly_head hws hc
      rw [if_neg (fun hfalse => Bool.noConfusion hfalse), hceq]
      exact congrArg (List.cons ' ')
        (ih true (wsOnly_tail hws) (noAdjWS_tail hadj) (fun _ => noAdjWS_head hadj hc))
    · rw [if_neg hc]
      exact congrArg (List.cons c)
        (ih false (wsOnly_tail hws) (noAdjWS_tail hadj) (fun hf => Bool.noConfusion hf))

theorem collapseChar_id (p : Char) : ∀ t, noRunOf p t = true → collapseChar p t = t := by
  intro t
  induction t with
  | nil => intro _; rfl
  | cons c cs ih =>
    intro h
    cases cs with
    | nil => rfl
    | cons d ds =>
      unfold collapseChar
      unfold noRunOf at h
      rw [Bool.and_eq_true] at h
      have h1 := h.1
      rw [Bool.not_eq_true'] at h1
      rw [if_neg (by simp [h1])]
      exact congrArg (List.cons c) (ih h.2)

theorem stepPunctWS_id : ∀ t, noWSThenPunct t = true → stepPunctWS t = t := by
  intro t
  induction t with
  | nil => intro _; rfl
  | cons c cs ih =>
    intro h
    unfold noWSThenPunct at h
    rw [Bool.and_eq_true] at h
    unfold stepPunctWS
    have hcond : ¬ ((isSpaceChar c && headIsPunctAfterWS cs) = true) := by
      intro hcc
      rw [Bool.and_eq_true] at hcc
      have h1 := h.1
      rw [hcc.1, hcc.2] at h1
      simp at h1
    rw [if_neg hcond]
    exact congrArg (List.cons c) (ih h.2)

theorem collapseSpacesAux_id : ∀ t, noAdjWS t = true →
    (collapseSpacesAux .noWS t = t ∧
     ∀ w, headNotWS t = true → collapseSpacesAux (.oneWS w) t = w :: t) := by
  intro t
  induction t with
  | nil => intro _; exact ⟨rfl, fun w _ => rfl⟩
  | cons c cs ih =>
    intro h
    obtain ⟨ihn, iho⟩ := ih (noAdjWS_tail h)
    constructor
    · unfold collapseSpacesAux
      by_cases hc : isSpaceChar c = true
      · rw [if_pos hc]
        exact iho c (noAdjWS_head h hc)
      · rw [if_neg hc]
        exact congrArg (List.cons c) ihn
    · intro w hw
      simp only [headNotWS, List.head?_cons] at hw
      simp at hw
      unfold collapseSpacesAux
      rw [if_neg (by simp [hw])]
      exact congrArg (List.cons w) (congrArg (List.cons c) ihn)

theorem cleanList_fixed {t : List Char}
    (hall : t.all allowedChar = true) (hws : wsOnly t = true) (hadj : noAdjWS t = true)
    (hwp : noWSThenPunct t = true) (hh : headNotWS t = true) (hl : lastNotWS t = true)
    (hrun : noPunctRun t = true) : cleanList t = t := by
  unfold noPunctRun at hrun
  rw [Bool.and_eq_true, Bool.and_eq_true] at hrun
  unfold cleanList
  by_cases ht : t = []
  · rw [if_pos ht, ht]
  · rw [if_neg ht]
    unfold squeezeWS
    rw [pyStrip_id hh hl]
    rw [squeezeWSAux_id t false hws hadj (fun hf => Bool.noConfusion hf)]
    rw [List.filter_eq_self.mpr (List.all_eq_true.mp hall)]
    rw [collapseChar_id '.' t hrun.1.1]
    rw [collapseChar_id '!' t hrun.1.2]
    rw [collapseChar_id '?' t hrun.2]
    rw [stepPunctWS_id t hwp]
    show pyStrip (collapseSpacesAux .noWS t) = t
    rw [(collapseSpacesAux_id t hadj).1]
    exact pyStrip_id hh hl

theorem wsOnly_cons {c : Char} {X : List Char} (h1 : (!isSpaceChar c || c == ' ') = true)
    (h2 : wsOnly X = true) : wsOnly (c :: X) = true := by
  unfold wsOnly at *
  rw [List.all_cons, Bool.and_eq_true]
  exact ⟨h1, h2⟩

theorem all_of_sublist {p : Char → Bool} {l₁ l₂ : List Char} (h : List.Sublist l₁ l₂)
    (hall : l₂.all p = true) : l₁.all p = true := by
  rw [List.all_eq_true] at hall
  rw [List.all_eq_true]
  exact fun c hc => hall c (h.subset hc)

theorem collapseChar_sublist (p : Char) : ∀ t, List.Sublist (collapseChar p t) t := by
  intro t
  induction t with
  | nil => exact List.Sublist.refl []
  | cons c cs ih =>
    cases cs with
    | nil => exact List.Sublist.refl [c]
    | cons d ds =>
      unfold collapseChar
      by_cases hcd : (c == p && d == p) = true
      · rw [if_pos hcd]
        exact List.Sublist.cons c ih
      · rw [if_neg hcd]
        exact List.Sublist.cons₂ c ih

theorem stepPunctWS_sublist : ∀ t, List.Sublist (stepPunctWS t) t := by
  intro t
  induction t with
  | nil => exact List.Sublist.refl []
  | cons c cs ih =>
    unfold stepPunctWS
    by_cases hc : (isSpaceChar c && headIsPunctAfterWS cs) = true
    · rw [if_pos hc]
      exact List.Sublist.cons c ih
    · rw [if_neg hc]
      exact List.Sublist.cons₂ c ih

theorem pyStrip_sublist (t : List Char) : List.Sublist (pyStrip t) t := by
  unfold pyStrip
  have h1 : List.Sublist (t.dropWhile isSpaceChar) t := List.dropWhile_sublist _
  have h2 : List.Sublist ((t.dropWhile isSpaceChar).reverse.dropWhile isSpaceChar)
      (t.dropWhile isSpaceChar).reverse := List.dropWhile_sublist _
  have h3 := List.Sublist.reverse h2
  rw [List.reverse_reverse] at h3
  exact h3.trans h1

theorem wsOnly_squeezeWSAux : ∀ (t : List Char) (b : Bool),
    wsOnly (squeezeWSAux b t) = true := by
  intro t
  induction t with
  | nil => intro b; rfl
  | cons c cs ih =>
    intro b
    unfold squeezeWSAux
    by_cases hc : isSpaceChar c = true
    · rw [if_pos hc]
      cases b
      · rw [if_neg (fun hf => Bool.noConfusion hf)]
        exact wsOnly_cons (by decide) (ih true)
      · rw [if_pos rfl]
        exact ih true
    · rw [if_neg hc]
      exact wsOnly_cons (by simp [hc]) (ih false)

theorem all_filter_self (p : Char → Bool) (t : List Char) :
    (t.filter p).all p = true := by
  rw [List.all_eq_true]
  intro c hc
  exact List.of_mem_filter hc

theorem all_collapseSpacesAux {p : Char → Bool} (hsp : p ' ' = true) :
    ∀ t : List Char, t.all p = true →
      ((collapseSpacesAux .noWS t).all p = true ∧
       (collapseSpacesAux .runWS t).all p = true ∧
       ∀ w, p w = true → (collapseSpacesAux (.oneWS w) t).all p = true) := by
  intro t
  induction t with
  | nil =>
    intro _
    refine ⟨rfl, rfl, ?_⟩
    intro w hw
    show ([w]).all p = true
    rw [List.all_cons, Bool.and_eq_true]
    exact ⟨hw, rfl⟩
  | cons c cs ih =>
    intro h
    rw [List.all_cons, Bool.and_eq_true] at h
    obtain ⟨ihn, ihr, iho⟩ := ih h.2
    refine ⟨?_, ?_, ?_⟩
    · unfold collapseSpacesAux
      by_cases hc : isSpaceChar c = true
      · rw [if_pos hc]
        exact iho c h.1
      · rw [if_neg hc]
        rw [List.all_cons, Bool.and_eq_true]
        exact ⟨h.1, ihn⟩
    · unfold collapseSpacesAux
      by_cases hc : isSpaceChar c = true
      · rw [if_pos hc]
        exact ihr
      · rw [if_neg hc]
        rw [List.all_cons, Bool.and_eq_true]
        exact ⟨h.1, ihn⟩
    · intro w hw
      unfold collapseSpacesAux
      by_cases hc : isSpaceChar c = true
      · rw [if_pos hc]
        rw [List.all_cons, Bool.and_eq_true]
        exact ⟨hsp, ihr⟩
      · rw [if_neg hc]
        rw [List.all_cons, Bool.and_eq_true]
        refine ⟨hw, ?_⟩
        rw [List.all_cons, Bool.and_eq_true]
        exact ⟨h.1, ihn⟩

theorem headPunct_cons_ws {c : Char} (cs : List Char) (hc : isSpaceChar c = true) :
    headIsPunctAfterWS (c :: cs) = headIsPunctAfterWS cs := by
  unfold headIsPunctAfterWS
  rw [List.dropWhile_cons, if_pos hc]

theorem headPunct_cons_not_ws {c : Char} (cs : List Char) (hc : isSpaceChar c = false) :
    headIsPunctAfterWS (c :: cs) = isPunctChar c := by
  unfold headIsPunctAfterWS
  rw [List.dropWhile_cons, if_neg (by simp [hc])]

theorem headPunct_stepPunctWS : ∀ t, headIsPunctAfterWS (stepPunctWS t) = true →
    headIsPunctAfterWS t = true := by
  intro t
  induction t with
  | nil => intro h; exact h
  | cons c cs ih =>
    intro h
    cases hc : isSpaceChar c with
    | true =>
      cases hp : headIsPunctAfterWS cs with
      | true =>
        rw [headPunct_cons_ws cs hc]
        exact hp
      | false =>
        unfold stepPunctWS at h
        rw [if_neg (by simp [hc, hp])] at h
        rw [headPunct_cons_ws _ hc] at h
        rw [headPunct_cons_ws cs hc]
        exact ih h
    | false =>
      unfold stepPunctWS at h
      rw [if_neg (by simp [hc])] at h
      rw [headPunct_cons_not_ws _ hc] at h
      rw [headPunct_cons_not_ws cs hc]
      exact h

theorem noWSThenPunct_cons {c : Char} {X : List Char}
    (h1 : isSpaceChar c = false ∨ headIsPunctAfterWS X = false)
    (h2 : noWSThenPunct X = true) : noWSThenPunct (c :: X) = true := by
  unfold noWSThenPunct
  rw [Bool.and_eq_true]
  refine ⟨?_, h2⟩
  rcases h1 with h1 | h1
  · simp [h1]
  · simp [h1]

theorem noWSThenPunct_stepPunctWS : ∀ t, noWSThenPunct (stepPunctWS t) = true := by
  intro t
  induction t with
  | nil => rfl
  | cons c cs ih =>
    unfold stepPunctWS
    by_cases hcond : (isSpaceChar c && headIsPunctAfterWS cs) = true
    · rw [if_pos hcond]
      exact ih
    · rw [if_neg hcond]
      apply noWSThenPunct_cons _ ih
      cases hc : isSpaceChar c with
      | false => exact Or.inl rfl
      | true =>
        right
        have hp : headIsPunctAfterWS cs = false := by
          cases hhp : headIsPunctAfterWS cs
          · rfl
          · exact absurd (by simp [hc, hhp]) hcond
        cases hsp : headIsPunctAfterWS (stepPunctWS cs)
        · rfl
        · have hmono := headPunct_stepPunctWS cs hsp
          rw [hmono] at hp
          exact Bool.noConfusion hp

theorem headPunct_collapseSpacesAux : ∀ t : List Char,
    headIsPunctAfterWS (collapseSpacesAux .noWS t) = headIsPunctAfterWS t ∧
    headIsPunctAfterWS (collapseSpacesAux .runWS t) = headIsPunctAfterWS t ∧
    ∀ w, isSpaceChar w = true →
      headIsPunctAfterWS (collapseSpacesAux (.oneWS w) t) = headIsPunctAfterWS t := by
  intro t
  induction t with
  | nil =>
    refine ⟨rfl, rfl, ?_⟩
    intro w hw
    show headIsPunctAfterWS [w] = headIsPunctAfterWS []
    rw [headPunct_cons_ws [] hw]
  | cons c cs ih =>
    obtain ⟨ihn, ihr, iho⟩ := ih
    cases hc : isSpaceChar c with
    | true =>
      refine ⟨?_, ?_, ?_⟩
      · unfold collapseSpacesAux
        rw [if_pos hc, iho c hc, headPunct_cons_ws cs hc]
      · unfold collapseSpacesAux
        rw [if_pos hc, ihr, headPunct_cons_ws cs hc]
      · intro w hw
        unfold collapseSpacesAux
        rw [if_pos hc, headPunct_cons_ws _ (by decide : isSpaceChar ' ' = true), ihr,
          headPunct_cons_ws cs hc]
    | false =>
      refine ⟨?_, ?_, ?_⟩
      · unfold collapseSpacesAux
        rw [if_neg (by simp [hc]), headPunct_cons_not_ws _ hc, headPunct_cons_not_ws cs hc]
      · unfold collapseSpacesAux
        rw [if_neg (by simp [hc]), headPunct_cons_not_ws _ hc, headPunct_cons_not_ws cs hc]
      · intro w hw
        unfold collapseSpacesAux
        rw [if_neg (by simp [hc]), headPunct_cons_ws _ hw, headPunct_cons_not_ws _ hc,
          headPunct_cons_not_ws cs hc]

theorem noWSThenPunct_collapseSpacesAux : ∀ t : List Char, noWSThenPunct t = true →
    noWSThenPunct (collapseSpacesAux .noWS t) = true ∧
    noWSThenPunct (collapseSpacesAux .runWS t) = true ∧
    ∀ w, isSpaceChar w = true → headIsPunctAfterWS t = false →
      noWSThenPunct (collapseSpacesAux (.oneWS w) t) = true := by
  intro t
  induction t with
  | nil =>
    intro _
    refine ⟨rfl, rfl, ?_⟩
    intro w _ _
    exact noWSThenPunct_cons (Or.inr rfl) rfl
  | cons c cs ih =>
    intro h
    have htl := noWSThenPunct_tail h
    obtain ⟨ihn, ihr, iho⟩ := ih htl
    have hcomp := headPunct_collapseSpacesAux cs
    cases hc : isSpaceChar c with
    | true =>
      have hpcs : headIsPunctAfterWS cs = false := by
        unfold noWSThenPunct at h
        rw [Bool.and_eq_true] at h
        have h1 := h.1
        rw [hc] at h1
        simpa using h1
      refine ⟨?_, ?_, ?_⟩
      · unfold collapseSpacesAux
        rw [if_pos hc]
        exact iho c hc hpcs
      · unfold collapseSpacesAux
        rw [if_pos hc]
        exact ihr
      · intro w _ _
        unfold collapseSpacesAux
        rw [if_pos hc]
        apply noWSThenPunct_cons _ ihr
        right
        rw [hcomp.2.1]
        exact hpcs
    | false =>
      refine ⟨?_, ?_, ?_⟩
      · unfold collapseSpacesAux
        rw [if_neg (by simp [hc])]
        exact noWSThenPunct_cons (Or.inl hc) ihn
      · unfold collapseSpacesAux
        rw [if_neg (by simp [hc])]
        exact noWSThenPunct_cons (Or.inl hc) ihn
      · intro w hw hnp
        unfold collapseSpacesAux
        rw [if_neg (by simp [hc])]
        apply noWSThenPunct_cons _ (noWSThenPunct_cons (Or.inl hc) ihn)
        right
        rw [headPunct_cons_not_ws _ hc]
        rw [headPunct_cons_not_ws cs hc] at hnp
        exact hnp

theorem headPunct_append_left {l₁ l₂ : List Char} (h : headIsPunctAfterWS l₁ = true) :
    headIsPunctAfterWS (l₁ ++ l₂) = true := by
  induction l₁ with
  | nil => exact absurd h (by simp [headIsPunctAfterWS])
  | cons c cs ih =>
    cases hc : isSpaceChar c with
    | true =>
      rw [headPunct_cons_ws cs hc] at h
      show headIsPunctAfterWS (c :: (cs ++ l₂)) = true
      rw [headPunct_cons_ws _ hc]
      exact ih h
    | false =>
      rw [headPunct_cons_not_ws cs hc] at h
      show headIsPunctAfterWS (c :: (cs ++ l₂)) = true
      rw [headPunct_cons_not_ws _ hc]
      exact h

theorem noWSThenPunct_append_left : ∀ (l₁ l₂ : List Char),
    noWSThenPunct (l₁ ++ l₂) = true → noWSThenPunct l₁ = true := by
  intro l₁
  induction l₁ with
  | nil => intro l₂ _; rfl
  | cons c cs ih =>
    intro l₂ h
    have h2 : noWSThenPunct (c :: (cs ++ l₂)) = true := h
    unfold noWSThenPunct at h2
    rw [Bool.and_eq_true] at h2
    apply noWSThenPunct_cons _ (ih l₂ h2.2)
    cases hc : isSpaceChar c with
    | false => exact Or.inl rfl
    | true =>
      right
      cases hhp : headIsPunctAfterWS cs
      · rfl
      · have happ := @headPunct_append_left cs l₂ hhp
        have h1 := h2.1
        rw [hc, happ] at h1
        simp at h1

theorem noWSThenPunct_dropWhile (q : Char → Bool) :
    ∀ t : List Char, noWSThenPunct t = true → noWSThenPunct (t.dropWhile q) = true := by
  intro t
  induction t with
  | nil => intro h; exact h
  | cons c cs ih =>
    intro h
    rw [List.dropWhile_cons]
    by_cases hq : q c = true
    · rw [if_pos hq]
      exact ih (noWSThenPunct_tail h)
    · rw [if_neg hq]
      exact h

theorem pyStrip_decomp (t : List Char) :
    ∃ l₂, t.dropWhile isSpaceChar = pyStrip t ++ l₂ := by
  refine ⟨((t.dropWhile isSpaceChar).reverse.takeWhile isSpaceChar).reverse, ?_⟩
  have hsplit :=
    List.takeWhile_append_dropWhile isSpaceChar (t.dropWhile isSpaceChar).reverse
  have hrev := congrArg List.reverse hsplit
  rw [List.reverse_append, List.reverse_reverse] at hrev
  exact hrev.symm

theorem noAdjWS_dropWhile (q : Char → Bool) :
    ∀ t, noAdjWS t = true → noAdjWS (t.dropWhile q) = true := by
  intro t
  induction t with
  | nil => intro h; exact h
  | cons c cs ih =>
    intro h
    rw [List.dropWhile_cons]
    by_cases hq : q c = true
    · rw [if_pos hq]
      exact ih (noAdjWS_tail h)
    · rw [if_neg hq]
      exact h

theorem noAdjWS_append_left : ∀ (l₁ l₂ : List Char),
    noAdjWS (l₁ ++ l₂) = true → noAdjWS l₁ = true := by
  intro l₁
  induction l₁ with
  | nil => intro l₂ _; rfl
  | cons c cs ih =>
    intro l₂ h
    cases cs with
    | nil => rfl
    | cons d ds =>
      have h2 : noAdjWS (c :: d :: (ds ++ l₂)) = true := h
      unfold noAdjWS at h2
      rw [Bool.and_eq_true] at h2
      unfold noAdjWS
      rw [Bool.and_eq_true]
      exact ⟨h2.1, ih l₂ h2.2⟩

theorem headNotWS_collapseSpacesAux_run :
    ∀ t, headNotWS (collapseSpacesAux .runWS t) = true := by
  intro t
  induction t with
  | nil => rfl
  | cons c cs ih =>
    unfold collapseSpacesAux
    cases hc : isSpaceChar c with
    | true =>
      rw [if_pos rfl]
      exact ih
    | false =>
      rw [if_neg (fun hf => Bool.noConfusion hf)]
      simp [headNotWS, hc]

theorem noAdjWS_collapseSpacesAux : ∀ t : List Char,
    noAdjWS (collapseSpacesAux .noWS t) = true ∧
    noAdjWS (collapseSpacesAux .runWS t) = true ∧
    ∀ w, noAdjWS (collapseSpacesAux (.oneWS w) t) = true := by
  intro t
  induction t with
  | nil => exact ⟨rfl, rfl, fun _ => rfl⟩
  | cons c cs ih =>
    obtain ⟨ihn, ihr, iho⟩ := ih
    cases hc : isSpaceChar c with
    | true =>
      refine ⟨?_, ?_, ?_⟩
      · unfold collapseSpacesAux
        rw [if_pos hc]
        exact iho c
      · unfold collapseSpacesAux
        rw [if_pos hc]
        exact ihr
      · intro w
        unfold collapseSpacesAux
        rw [if_pos hc]
        exact noAdjWS_cons (Or.inr (headNotWS_collapseSpacesAux_run cs)) ihr
    | false =>
      refine ⟨?_, ?_, ?_⟩
      · unfold collapseSpacesAux
        rw [if_neg (by simp [hc])]
        exact noAdjWS_cons (Or.inl hc) ihn
      · unfold collapseSpacesAux
        rw [if_neg (by simp [hc])]
        exact noAdjWS_cons (Or.inl hc) ihn
      · intro w
        unfold collapseSpacesAux
        rw [if_neg (by simp [hc])]
        refine noAdjWS_cons (Or.inr ?_) (noAdjWS_cons (Or.inl hc) ihn)
        simp [headNotWS, hc]

theorem noAdjWS_pyStrip {u : List Char} (h : noAdjWS u = true) :
    noAdjWS (pyStrip u) = true := by
  have h1 : noAdjWS (u.dropWhile isSpaceChar) = true := noAdjWS_dropWhile _ u h
  obtain ⟨l₂, hdecomp⟩ := pyStrip_decomp u
  rw [hdecomp] at h1
  exact noAdjWS_append_left (pyStrip u) l₂ h1

theorem noWSThenPunct_pyStrip {u : List Char} (h : noWSThenPunct u = true) :
    noWSThenPunct (pyStrip u) = true := by
  have h1 : noWSThenPunct (u.dropWhile isSpaceChar) = true :=
    noWSThenPunct_dropWhile _ u h
  obtain ⟨l₂, hdecomp⟩ := pyStrip_decomp u
  rw [hdecomp] at h1
  exact noWSThenPunct_append_left (pyStrip u) l₂ h1

theorem headNotWS_dropWhile_ws : ∀ t : List Char,
    headNotWS (t.dropWhile isSpaceChar) = true := by
  intro t
  induction t with
  | nil => rfl
  | cons c cs ih =>
    rw [List.dropWhile_cons]
    cases hc : isSpaceChar c with
    | true =>
      rw [if_pos rfl]
      exact ih
    | false =>
      rw [if_neg (fun hf => Bool.noConfusion hf)]
      simp [headNotWS, hc]

theorem head?_not_ws {X : List Char} (h : headNotWS X = true) :
    ∀ c, X.head? = some c → isSpaceChar c = false := by
  intro c hc
  unfold headNotWS at h
  rw [hc] at h
  simpa using h

theorem headNotWS_of_head? {X : List Char}
    (h : ∀ c, X.head? = some c → isSpaceChar c = false) : headNotWS X = true := by
  unfold headNotWS
  cases hx : X.head? with
  | none => rfl
  | some c => simp [h c hx]

theorem lastNotWS_of_getLast? {X : List Char}
    (h : ∀ c, X.getLast? = some c → isSpaceChar c = false) : lastNotWS X = true := by
  unfold lastNotWS
  cases hx : X.getLast? with
  | none => rfl
  | some c => simp [h c hx]

theorem getLast?_dropWhile_ws : ∀ l : List Char, l.dropWhile isSpaceChar ≠ [] →
    (l.dropWhile isSpaceChar).getLast? = l.getLast? := by
  intro l
  induction l with
  | nil => intro _; rfl
  | cons c cs ih =>
    intro h
    rw [List.dropWhile_cons] at h ⊢
    by_cases hc : isSpaceChar c = true
    · rw [if_pos hc] at h ⊢
      cases cs with
      | nil => exact absurd rfl h
      | cons d ds =>
        rw [ih h, List.getLast?_cons_cons]
    · rw [if_neg hc] at h ⊢

theorem pyStrip_ends (u : List Char) :
    headNotWS (pyStrip u) = true ∧ lastNotWS (pyStrip u) = true := by
  constructor
  · apply headNotWS_of_head?
    intro c hc
    unfold pyStrip at hc
    rw [List.head?_reverse] at hc
    have hne : (u.dropWhile isSpaceChar).reverse.dropWhile isSpaceChar ≠ [] := by
      intro he
      rw [he] at hc
      exact Option.noConfusion hc
    rw [getLast?_dropWhile_ws _ hne, List.getLast?_reverse] at hc
    exact head?_not_ws (headNotWS_dropWhile_ws u) c hc
  · apply lastNotWS_of_getLast?
    intro c hc
    unfold pyStrip at hc
    rw [List.getLast?_reverse] at hc
    exact head?_not_ws (headNotWS_dropWhile_ws _) c hc

theorem wsOnly_collapseSpaces {t : List Char} (h : wsOnly t = true) :
    wsOnly (collapseSpaces t) = true := by
  unfold wsOnly at h ⊢
  exact (all_collapseSpacesAux (by decide) t h).1

theorem allowed_collapseSpaces {t : List Char} (h : t.all allowedChar = true) :
    (collapseSpaces t).all allowedChar = true :=
  (all_collapseSpacesAux (by decide) t h).1

theorem cleanList_shape (l : List Char) :
    (cleanList l).all allowedChar = true ∧ wsOnly (cleanList l) = true ∧
    noAdjWS (cleanList l) = true ∧ noWSThenPunct (cleanList l) = true ∧
    headNotWS (cleanList l) = true ∧ lastNotWS (cleanList l) = true := by
  unfold cleanList
  by_cases hl : l = []
  · rw [if_pos hl]
    exact ⟨rfl, rfl, rfl, rfl, rfl, rfl⟩
  · rw [if_neg hl]
    have hws0 : wsOnly (squeezeWS l) = true := wsOnly_squeezeWSAux (pyStrip l) false
    have hall1 : (List.filter allowedChar (squeezeWS l)).all allowedChar = true :=
      all_filter_self _ _
    have hws1 : wsOnly (List.filter allowedChar (squeezeWS l)) = true :=
      all_of_sublist (List.filter_sublist _) hws0
    have hsub2 := collapseChar_sublist '.' (List.filter allowedChar (squeezeWS l))
    have hsub3 := collapseChar_sublist '!'
      (collapseChar '.' (List.filter allowedChar (squeezeWS l)))
    have hsub4 := collapseChar_sublist '?'
      (collapseChar '!' (collapseChar '.' (List.filter allowedChar (squeezeWS l))))
    have hsub5 := stepPunctWS_sublist
      (collapseChar '?' (collapseChar '!' (collapseChar '.'
        (List.filter allowedChar (squeezeWS l)))))
    have hsub25 := ((hsub5.trans hsub4).trans hsub3).trans hsub2
    have hall5 := all_of_sublist hsub25 hall1
    have hws5 : wsOnly (stepPunctWS
        (collapseChar '?' (collapseChar '!' (collapseChar '.'
          (List.filter allowedChar (squeezeWS l)))))) = true :=
      all_of_sublist hsub25 hws1
    have hwp5 := noWSThenPunct_stepPunctWS
      (collapseChar '?' (collapseChar '!' (collapseChar '.'
        (List.filter allowedChar (squeezeWS l)))))
    have hall6 := allowed_collapseSpaces hall5
    have hws6 := wsOnly_collapseSpaces hws5
    have hadj6 := (noAdjWS_collapseSpacesAux (stepPunctWS
      (collapseChar '?' (collapseChar '!' (collapseChar '.'
        (List.filter allowedChar (squeezeWS l))))))).1
    have hwp6 := (noWSThenPunct_collapseSpacesAux _ hwp5).1
    refine ⟨all_of_sublist (pyStrip_sublist _) hall6,
      all_of_sublist (pyStrip_sublist _) hws6,
      noAdjWS_pyStrip hadj6,
      noWSThenPunct_pyStrip hwp6,
      (pyStrip_ends _).1,
      (pyStrip_ends _).2⟩

/-- Claim C3 counterexample: `clean_text` is not idempotent.  On `". ."` the
whitespace-before-punctuation pass creates the dot run `".."`, which a
second cleaning collapses to `"."`. -/
theorem claim3_counterexample :
    clean_text (clean_text ". .") ≠ clean_text ". ." := by decide

/-- Claim C3 (amended): empty or all-whitespace input yields the empty
string without error, and `clean_text` is idempotent on every string whose
cleaned form contains no run of two or more repeated `.`, `!` or `?`
characters — but not on every string, because removing whitespace before
punctuation can create such a run (see the counterexample). -/
theorem claim3_amended (s : String) (h : noPunctRun (cleanList s.data) = true) :
    clean_text (clean_text s) = clean_text s ∧
    (s.data.all isSpaceChar = true → clean_text s = "") := by
  constructor
  · show String.mk (cleanList (cleanList s.data)) = String.mk (cleanList s.data)
    obtain ⟨hall, hws, hadj, hwp, hh, hl⟩ := cleanList_shape s.data
    exact congrArg String.mk (cleanList_fixed hall hws hadj hwp hh hl h)
  · intro hws
    have h0 : pyStrip s.data = [] := by
      unfold pyStrip
      rw [List.dropWhile_eq_nil_iff.mpr (List.all_eq_true.mp hws)]
      simp
    show String.mk (cleanList s.data) = ""
    unfold cleanList
    by_cases hd : s.data = []
    · rw [if_pos hd]
    · rw [if_neg hd]
      unfold squeezeWS
      rw [h0]
      rfl

/-- Claim C3 witness: `"a. b"` cleans to itself and its cleaned form has no
punctuation run, so cleaning twice equals cleaning once. -/
theorem claim3_witness :
    noPunctRun (cleanList "a. b".data) = true ∧
    (clean_text (clean_text "a. b") = clean_text "a. b" ∧
     ("a. b".data.all isSpaceChar = true → clean_text "a. b" = "")) :=
  ⟨by decide, claim3_amended "a. b" (by decide)⟩
